import Mathlib

/-!
Verification of the SurrealDB M-Tree KNN index specification and of the
SQL `Regex` wrapper (`src/lib/src/sql/regex.rs`).

The M-Tree core itself (`surrealdb::idx::trees::mtree`) is not part of the
source tree under study; only its caller (`benches/index_mtree.rs`) is.
Following the specification document, the data model and the operations of
the index (insert with split/promotion/partition, KNN search with
branch-and-bound pruning, the transactional node store) are modelled here
from the specification text and verified against the stated properties.

Scalars are modelled as rationals (the spec treats distances as exact real
values satisfying the metric axioms); machine floating point is out of
scope of the shallow embedding.
-/

namespace Mt

/-- Document identifier: an opaque unsigned integer (spec section 3). -/
abbrev DocId := Nat

/-- A vector is a list of scalars; its dimension is implicit in its length
(spec section 3, "Vector"). -/
abbrev Vec := List ℚ

/-- Modelled from the spec (section 4.1): the pluggable distance metric is
abstracted as a function on vectors; the metric axioms required by the spec
(symmetry, non-negativity, identity, triangle inequality) are collected in
this predicate. Non-negativity and the triangle inequality are only required
on vectors of equal dimension, which is all the index ever compares. -/
structure IsMetric (d : Vec → Vec → ℚ) : Prop where
  symm : ∀ a b, d a b = d b a
  self_eq_zero : ∀ a, d a a = 0
  nonneg : ∀ a b, a.length = b.length → 0 ≤ d a b
  triangle : ∀ a b c, a.length = b.length → b.length = c.length →
    d a c ≤ d a b + d b c

/-- Modelled from the spec (section 4.1): the Manhattan metric, one of the
enumerated metric choices, used as the concrete witness metric. -/
def manhattan (a b : Vec) : ℚ :=
  (List.zipWith (fun x y => |x - y|) a b).sum

/-- A leaf entry: vector, set of doc ids, cached distance to the parent
pivot (spec section 3, "Leaf Node"). -/
structure LeafEntry where
  vector : Vec
  docs : List DocId
  parentDist : ℚ
deriving Repr, DecidableEq

mutual
/-- A tree node is either a leaf (bag of leaf entries) or a routing node
(bag of routing entries); spec section 3, "Leaf Node" / "Routing Node". -/
inductive Tree where
  | leaf (entries : List LeafEntry) : Tree
  | routing (entries : List REntry) : Tree
deriving Repr
/-- A routing entry: pivot vector, covering radius, cached distance to the
parent pivot, and the subtree it points at (spec section 3). The stored
subtree-node-id indirection of the node store is modelled separately in the
persistence layer below. -/
inductive REntry where
  | mk (pivot : Vec) (radius : ℚ) (parentDist : ℚ) (subtree : Tree) : REntry
deriving Repr
end

def REntry.pivot : REntry → Vec
  | .mk p _ _ _ => p

def REntry.radius : REntry → ℚ
  | .mk _ r _ _ => r

def REntry.parentDist : REntry → ℚ
  | .mk _ _ pd _ => pd

def REntry.subtree : REntry → Tree
  | .mk _ _ _ t => t

theorem REntry.sizeOf_subtree_lt (e : REntry) : sizeOf e.subtree < sizeOf e := by
  cases e with
  | mk p r pd t =>
    simp only [REntry.subtree, REntry.mk.sizeOf_spec]
    omega

theorem REntry.sizeOf_lt_of_mem {e : REntry} {es : List REntry} (h : e ∈ es) :
    sizeOf e.subtree < sizeOf (Tree.routing es) := by
  have h1 := REntry.sizeOf_subtree_lt e
  have h2 := List.sizeOf_lt_of_mem h
  simp only [Tree.routing.sizeOf_spec]
  omega

/-- All vectors stored in leaf entries below a node (spec glossary: the
vectors "reachable under" a subtree). -/
def Tree.vecs : Tree → List Vec
  | .leaf es => es.map LeafEntry.vector
  | .routing [] => []
  | .routing (e :: es) => e.subtree.vecs ++ (Tree.routing es).vecs
termination_by t => sizeOf t
decreasing_by
  · have := REntry.sizeOf_subtree_lt e
    simp only [Tree.routing.sizeOf_spec, List.cons.sizeOf_spec]
    omega
  · simp only [Tree.routing.sizeOf_spec, List.cons.sizeOf_spec]
    omega

/-- All (vector, doc set) leaf entries below a node, in traversal order. -/
def Tree.entries : Tree → List LeafEntry
  | .leaf es => es
  | .routing [] => []
  | .routing (e :: es) => e.subtree.entries ++ (Tree.routing es).entries
termination_by t => sizeOf t
decreasing_by
  · have := REntry.sizeOf_subtree_lt e
    simp only [Tree.routing.sizeOf_spec, List.cons.sizeOf_spec]
    omega
  · simp only [Tree.routing.sizeOf_spec, List.cons.sizeOf_spec]
    omega

/-- The multiset of (distance-to-query, doc id) pairs of everything stored
below a node: the reference enumeration a brute-force linear scan works on. -/
def Tree.pairs (d : Vec → Vec → ℚ) (q : Vec) (t : Tree) : List (ℚ × DocId) :=
  t.entries.flatMap (fun e => e.docs.map (fun doc => (d q e.vector, doc)))


/-- Lexicographic comparison on (radius increase, existing radius) used by
the spec for tie-breaking the insertion heuristic (section 4.3 step 1). -/
def lexLe (a b : ℚ × ℚ) : Bool :=
  decide (a.1 < b.1) || (decide (a.1 = b.1) && decide (a.2 ≤ b.2))

/-- Modelled from the spec (section 4.3 step 1): among the routing entries
whose covering radius already contains the new vector, choose the one whose
pivot is closest (first entry wins ties). Returns the entries before the
chosen one, the chosen entry, the entries after it, and the pivot distance. -/
def chooseCov (d : Vec → Vec → ℚ) (v : Vec) :
    List REntry → Option (List REntry × REntry × List REntry × ℚ)
  | [] => none
  | e :: es =>
    match chooseCov d v es with
    | some (pre, f, post, df) =>
      if d e.pivot v ≤ e.radius then
        if df < d e.pivot v then some (e :: pre, f, post, df)
        else some ([], e, es, d e.pivot v)
      else some (e :: pre, f, post, df)
    | none =>
      if d e.pivot v ≤ e.radius then some ([], e, es, d e.pivot v) else none

/-- Modelled from the spec (section 4.3 step 1): when no entry covers the
new vector, choose the entry requiring the smallest radius increase, ties
broken by smaller existing radius, then by position. -/
def chooseExp (d : Vec → Vec → ℚ) (v : Vec) :
    List REntry → Option (List REntry × REntry × List REntry × ℚ)
  | [] => none
  | e :: es =>
    match chooseExp d v es with
    | some (pre, f, post, df) =>
      if lexLe (d e.pivot v - e.radius, e.radius) (df - f.radius, f.radius) then
        some ([], e, es, d e.pivot v)
      else some (e :: pre, f, post, df)
    | none => some ([], e, es, d e.pivot v)

/-- Modelled from the spec (section 4.3 step 1): the subtree-selection
heuristic for insertion, combining the covering case and the expansion case. -/
def chooseSub (d : Vec → Vec → ℚ) (v : Vec) (es : List REntry) :
    Option (List REntry × REntry × List REntry × ℚ) :=
  match chooseCov d v es with
  | some r => some r
  | none => chooseExp d v es

theorem chooseCov_eq {d v es pre e post de}
    (h : chooseCov d v es = some (pre, e, post, de)) :
    es = pre ++ e :: post ∧ de = d e.pivot v := by
  induction es generalizing pre e post de with
  | nil => simp [chooseCov] at h
  | cons a as ih =>
    rw [chooseCov] at h
    rcases hrec : chooseCov d v as with _ | ⟨⟨pre1, f1, post1, df1⟩⟩ <;> rw [hrec] at h <;>
        dsimp only at h
    · by_cases hca : d a.pivot v ≤ a.radius
      · rw [if_pos hca] at h
        simp only [Option.some.injEq, Prod.mk.injEq] at h
        obtain ⟨h1, h2, h3, h4⟩ := h
        subst h1; subst h2; subst h3; subst h4
        exact ⟨rfl, rfl⟩
      · rw [if_neg hca] at h
        simp at h
    · obtain ⟨g1, g2⟩ := ih hrec
      by_cases hca : d a.pivot v ≤ a.radius
      · rw [if_pos hca] at h
        by_cases hdf : df1 < d a.pivot v
        · rw [if_pos hdf] at h
          simp only [Option.some.injEq, Prod.mk.injEq] at h
          obtain ⟨h1, h2, h3, h4⟩ := h
          subst h1; subst h2; subst h3; subst h4
          exact ⟨by simp [g1], g2⟩
        · rw [if_neg hdf] at h
          simp only [Option.some.injEq, Prod.mk.injEq] at h
          obtain ⟨h1, h2, h3, h4⟩ := h
          subst h1; subst h2; subst h3; subst h4
          exact ⟨rfl, rfl⟩
      · rw [if_neg hca] at h
        simp only [Option.some.injEq, Prod.mk.injEq] at h
        obtain ⟨h1, h2, h3, h4⟩ := h
        subst h1; subst h2; subst h3; subst h4
        exact ⟨by simp [g1], g2⟩

theorem chooseExp_eq {d v es pre e post de}
    (h : chooseExp d v es = some (pre, e, post, de)) :
    es = pre ++ e :: post ∧ de = d e.pivot v := by
  induction es generalizing pre e post de with
  | nil => simp [chooseExp] at h
  | cons a as ih =>
    rw [chooseExp] at h
    rcases hrec : chooseExp d v as with _ | ⟨⟨pre1, f1, post1, df1⟩⟩ <;> rw [hrec] at h <;>
        dsimp only at h
    · simp only [Option.some.injEq, Prod.mk.injEq] at h
      obtain ⟨h1, h2, h3, h4⟩ := h
      subst h1; subst h2; subst h3; subst h4
      exact ⟨rfl, rfl⟩
    · obtain ⟨g1, g2⟩ := ih hrec
      by_cases hl : lexLe (d a.pivot v - a.radius, a.radius) (df1 - f1.radius, f1.radius)
      · rw [if_pos hl] at h
        simp only [Option.some.injEq, Prod.mk.injEq] at h
        obtain ⟨h1, h2, h3, h4⟩ := h
        subst h1; subst h2; subst h3; subst h4
        exact ⟨rfl, rfl⟩
      · rw [if_neg hl] at h
        simp only [Option.some.injEq, Prod.mk.injEq] at h
        obtain ⟨h1, h2, h3, h4⟩ := h
        subst h1; subst h2; subst h3; subst h4
        exact ⟨by simp [g1], g2⟩

theorem chooseSub_eq {d v es pre e post de}
    (h : chooseSub d v es = some (pre, e, post, de)) :
    es = pre ++ e :: post ∧ de = d e.pivot v := by
  unfold chooseSub at h
  rcases hc : chooseCov d v es with _ | r <;> rw [hc] at h <;> dsimp only at h
  · exact chooseExp_eq h
  · cases h; exact chooseCov_eq hc

theorem chooseSub_isSome {d v} {es : List REntry} (h : es ≠ []) :
    (chooseSub d v es).isSome := by
  unfold chooseSub
  rcases hc : chooseCov d v es with _ | r
  · cases es with
    | nil => exact absurd rfl h
    | cons a as =>
      rw [chooseExp]
      rcases hrec : chooseExp d v as with _ | ⟨⟨pre1, f1, post1, df1⟩⟩ <;> dsimp only
      · simp
      · by_cases hl : lexLe (d a.pivot v - a.radius, a.radius) (df1 - f1.radius, f1.radius)
        · rw [if_pos hl]; simp
        · rw [if_neg hl]; simp
  · simp

/-- All unordered pairs of a list, each pair in list order, pairs ordered by
position of their first component (spec section 4.3 "Promotion": the
considered candidate set is every pair of entries of the overflowing node). -/
def allPairs {α : Type} : List α → List (α × α)
  | [] => []
  | a :: rest => rest.map (fun b => (a, b)) ++ allPairs rest

/-- Modelled from the spec (section 4.3 "Promotion"): pick the pair
maximizing the given score, the earliest such pair winning ties. -/
def pickFarthest {α : Type} (f : α → α → ℚ) : List (α × α) → Option (α × α)
  | [] => none
  | p :: ps =>
    match pickFarthest f ps with
    | none => some p
    | some q => if f p.1 p.2 < f q.1 q.2 then some q else some p

/-- Maximum of a list of rationals, 0 for the empty list (spec section 4.3
"Partition": the covering radius of a resulting node is the maximum over its
assigned entries, 0 for a singleton). -/
def qmax0 : List ℚ → ℚ
  | [] => 0
  | x :: xs => max x (qmax0 xs)

/-- One of the two halves a split produces: new pivot, recomputed covering
radius, assigned entries (spec section 4.3 "Partition"). -/
structure Half (α : Type) where
  pivot : Vec
  radius : ℚ
  entries : List α

/-- Builds one half of a split: every assigned entry gets its
distance-to-parent recomputed against the new pivot, and the covering radius
is the maximum of the pivot distances plus each entry's own radius
contribution (0 for leaf entries, the entry's covering radius for routing
entries), so that the new radius covers everything below the half. -/
def mkHalf {α : Type} (d : Vec → Vec → ℚ) (vecOf : α → Vec) (setPD : α → ℚ → α)
    (extra : α → ℚ) (p : Vec) (raw : List α) : Half α :=
  ⟨p, qmax0 (raw.map (fun e => d p (vecOf e) + extra e)),
    raw.map (fun e => setPD e (d p (vecOf e)))⟩

/-- Assignment predicate of the partition step: an entry goes to the first
half iff it is the first promoted entry, or it is not the second promoted
entry and its vector is at least as close to the first new pivot as to the
second (ties to the first half). The promoted entries are forced to their
own halves, so both halves are nonempty. -/
def splitPred {α : Type} (d : Vec → Vec → ℚ) (vecOf : α → Vec) (i j : Nat)
    (p1 p2 : Vec) (y : Nat × α) : Bool :=
  y.1 == i || (!(y.1 == j) && decide (d (vecOf y.2) p1 ≤ d (vecOf y.2) p2))

/-- Modelled from the spec (section 4.3 step 3): split an overflowing node's
entry list. Promotion chooses the pair of entries with maximal pairwise
distance; partition assigns every entry to the closer promoted pivot and
recomputes distances and covering radii. Only invoked on at least two
entries; the none case is unreachable. -/
def splitNode {α : Type} (d : Vec → Vec → ℚ) (vecOf : α → Vec) (setPD : α → ℚ → α)
    (extra : α → ℚ) (es : List α) : Half α × Half α :=
  match pickFarthest (fun x y => d (vecOf x.2) (vecOf y.2)) (allPairs es.enum) with
  | none => (⟨[], 0, es⟩, ⟨[], 0, []⟩)
  | some (x1, x2) =>
    (mkHalf d vecOf setPD extra (vecOf x1.2)
      ((es.enum.filter (splitPred d vecOf x1.1 x2.1 (vecOf x1.2) (vecOf x2.2))).map Prod.snd),
     mkHalf d vecOf setPD extra (vecOf x2.2)
      ((es.enum.filter (fun y => !splitPred d vecOf x1.1 x2.1 (vecOf x1.2) (vecOf x2.2) y)).map Prod.snd))

/-- Result of inserting into a subtree: either an updated subtree, or the
two halves (pivot, covering radius, node) of a split (spec section 4.3). -/
inductive InsRes where
  | single (t : Tree) : InsRes
  | split (p1 : Vec) (r1 : ℚ) (t1 : Tree) (p2 : Vec) (r2 : ℚ) (t2 : Tree) : InsRes

def LeafEntry.setPD (e : LeafEntry) (pd : ℚ) : LeafEntry :=
  { e with parentDist := pd }

def REntry.setPD (e : REntry) (pd : ℚ) : REntry :=
  .mk e.pivot e.radius pd e.subtree

/-- Split an overflowing leaf node (spec section 4.3 step 3). -/
def splitLeaf (d : Vec → Vec → ℚ) (es : List LeafEntry) : InsRes :=
  match splitNode d LeafEntry.vector LeafEntry.setPD (fun _ => 0) es with
  | (h1, h2) => .split h1.pivot h1.radius (.leaf h1.entries) h2.pivot h2.radius (.leaf h2.entries)

/-- Split an overflowing routing node (spec section 4.3 step 3; the radius
contribution of a routing entry is its own covering radius, so the new
half's radius covers its entire subtree by the triangle inequality). -/
def splitRouting (d : Vec → Vec → ℚ) (es : List REntry) : InsRes :=
  match splitNode d REntry.pivot REntry.setPD REntry.radius es with
  | (h1, h2) => .split h1.pivot h1.radius (.routing h1.entries) h2.pivot h2.radius (.routing h2.entries)

/-- Adds a doc id to a doc id set (spec section 4.3 step 2: dedup by vector
value puts the new doc id into the existing entry's set). -/
def addDoc (doc : DocId) (docs : List DocId) : List DocId :=
  if doc ∈ docs then docs else docs ++ [doc]

/-- Distance to the parent pivot: 0 when there is no parent (spec section
4.3 step 2: a root leaf has no parent pivot and this is tracked as 0). -/
def pdOf (d : Vec → Vec → ℚ) (pp : Option Vec) (v : Vec) : ℚ :=
  match pp with
  | some p => d p v
  | none => 0

/-- Modelled from the spec (section 4.3): recursive insertion of a vector
and doc id below a node whose parent pivot is `pp`. Descends along the
subtree-selection heuristic, growing the chosen entry's covering radius when
it did not already contain the vector, dedups by vector value at the target
leaf, appends a new leaf entry otherwise, and splits any node that exceeds
the capacity `m`, cascading splits upward through the returned `InsRes`. -/
def insertAt (d : Vec → Vec → ℚ) (m : Nat) (pp : Option Vec) (v : Vec) (doc : DocId) :
    Tree → InsRes
  | .leaf es =>
    if es.any (fun e => decide (e.vector = v)) then
      .single (.leaf (es.map (fun e =>
        if e.vector = v then { e with docs := addDoc doc e.docs } else e)))
    else
      if es.length + 1 ≤ m then .single (.leaf (es ++ [⟨v, [doc], pdOf d pp v⟩]))
      else splitLeaf d (es ++ [⟨v, [doc], pdOf d pp v⟩])
  | .routing es =>
    match h : chooseSub d v es with
    | none => .single (.routing es)
    | some (pre, e, post, de) =>
      match insertAt d m (some e.pivot) v doc e.subtree with
      | .single t1 =>
        .single (.routing (pre ++ REntry.mk e.pivot (max e.radius de) e.parentDist t1 :: post))
      | .split p1 r1 t1 p2 r2 t2 =>
        if pre.length + post.length + 2 ≤ m then
          .single (.routing (pre ++ REntry.mk p1 r1 (pdOf d pp p1) t1 ::
            REntry.mk p2 r2 (pdOf d pp p2) t2 :: post))
        else splitRouting d (pre ++ REntry.mk p1 r1 (pdOf d pp p1) t1 ::
          REntry.mk p2 r2 (pdOf d pp p2) t2 :: post)
termination_by t => sizeOf t
decreasing_by
  obtain ⟨h1, h2⟩ := chooseSub_eq h
  subst h1
  exact REntry.sizeOf_lt_of_mem (List.mem_append_right _ (List.mem_cons_self _ _))

/-- Modelled from the spec (section 4.3): insertion at the root. If the root
splits, a new routing node becomes root, holding the two halves; the tree
height increases by one. -/
def insertTree (d : Vec → Vec → ℚ) (m : Nat) (t : Tree) (v : Vec) (doc : DocId) : Tree :=
  match insertAt d m none v doc t with
  | .single t1 => t1
  | .split p1 r1 t1 p2 r2 t2 => .routing [.mk p1 r1 0 t1, .mk p2 r2 0 t2]

/-- Keeps a (distance, doc id) list sorted ascending by distance; an element
equal in distance to existing ones goes after them (deterministic
tie-breaking by arrival order, spec section 4.4 last paragraph). -/
def insSorted (p : ℚ × DocId) : List (ℚ × DocId) → List (ℚ × DocId)
  | [] => [p]
  | q :: qs => if p.1 < q.1 then p :: q :: qs else q :: insSorted p qs

/-- The largest distance currently in the bounded result set: its last
element, since the set is kept sorted (spec section 4.4: `worst`). -/
def worstOf (res : List (ℚ × DocId)) : Option ℚ :=
  res.getLast?.map Prod.fst

/-- Modelled from the spec (section 4.4): a candidate enters the bounded
result set iff the set holds fewer than `k` elements (worst is infinite) or
the candidate's distance is smaller than the current worst. -/
def admits (k : Nat) (res : List (ℚ × DocId)) (dd : ℚ) : Bool :=
  decide (res.length < k) ||
    (match worstOf res with
     | none => false
     | some w => decide (dd < w))

/-- Modelled from the spec (section 4.4): insert a candidate into the
bounded result set of size `k`, evicting the current worst when the set
would exceed `k`. -/
def pushK (k : Nat) (res : List (ℚ × DocId)) (p : ℚ × DocId) : List (ℚ × DocId) :=
  if admits k res p.1 then (insSorted p res).take k else res

/-- Modelled from the spec (section 4.4): a subtree is skipped iff the
result set is full and the subtree's lower bound `d(pivot,query) - radius`
exceeds the current worst distance. -/
def skipSubtree (k : Nat) (res : List (ℚ × DocId)) (lb : ℚ) : Bool :=
  !decide (res.length < k) &&
    (match worstOf res with
     | none => false
     | some w => decide (w < lb))

/-- Modelled from the spec (section 4.4): the KNN traversal. The spec's
best-first priority queue affects only the visit order, which the spec
leaves observably unspecified up to its arbitrary tie-breaking; the
traversal is modelled depth-first with the same pruning bound, processing a
node's entries in order. At a leaf every doc id of an admissible entry is
pushed with the entry's true distance; at a routing node a child is visited
unless the pruning bound excludes it. -/
def searchGo (d : Vec → Vec → ℚ) (q : Vec) (k : Nat) :
    Tree → List (ℚ × DocId) → List (ℚ × DocId)
  | .leaf es, res =>
    es.foldl (fun r e => e.docs.foldl (fun r2 doc => pushK k r2 (d q e.vector, doc)) r) res
  | .routing [], res => res
  | .routing (e :: es), res =>
    searchGo d q k (.routing es)
      (if skipSubtree k res (d e.pivot q - e.radius) then res
       else searchGo d q k e.subtree res)
termination_by t res => sizeOf t
decreasing_by
  · have := REntry.sizeOf_subtree_lt e
    simp only [Tree.routing.sizeOf_spec, List.cons.sizeOf_spec]
    omega
  · simp only [Tree.routing.sizeOf_spec, List.cons.sizeOf_spec]
    omega

/-- Dimension check: all stored vectors and pivots below a node have the
given length. A query or inserted vector of a different dimension makes a
distance computation fail with `DimensionMismatch` (spec section 4.1). -/
def Tree.dimsOk (n : Nat) : Tree → Bool
  | .leaf es => es.all (fun e => e.vector.length == n)
  | .routing [] => true
  | .routing (e :: es) =>
    (e.pivot.length == n) && e.subtree.dimsOk n && (Tree.routing es).dimsOk n
termination_by t => sizeOf t
decreasing_by
  · have := REntry.sizeOf_subtree_lt e
    simp only [Tree.routing.sizeOf_spec, List.cons.sizeOf_spec]
    omega
  · simp only [Tree.routing.sizeOf_spec, List.cons.sizeOf_spec]
    omega

/-- Error kinds of the index (spec section 7). Storage and transaction
errors belong to the out-of-scope substrate. -/
inductive Err where
  | DimensionMismatch : Err
  | NodeNotFound (id : Nat) : Err
deriving Repr, DecidableEq

/-- Index-wide configuration: capacity `m`, the maximum number of entries
per node, immutable after creation (spec section 3, "MState"). -/
structure MState where
  capacity : Nat
deriving Repr

def MState.new (m : Nat) : MState :=
  ⟨m⟩

/-- The index: capacity state and optional root; the tree is empty until the
first insert (spec section 3, "MTree"). The distance metric, fixed at
creation, is passed as the `d` parameter of the operations. -/
structure MTree where
  state : MState
  root : Option Tree
deriving Repr

def MTree.new (s : MState) : MTree :=
  ⟨s, none⟩

/-- Modelled from the spec (section 4.3): top-level insert. An empty tree
gets a root leaf with the single entry; otherwise the vector's dimension is
checked against the stored vectors (a mismatch would surface from the first
distance computation of the descent) and the descent runs. -/
def MTree.insert (d : Vec → Vec → ℚ) (t : MTree) (v : Vec) (doc : DocId) :
    Except Err MTree :=
  match t.root with
  | none => .ok ⟨t.state, some (.leaf [⟨v, [doc], 0⟩])⟩
  | some root =>
    if root.dimsOk v.length then
      .ok ⟨t.state, some (insertTree d t.state.capacity root v doc)⟩
    else .error .DimensionMismatch

/-- Folds `MTree.insert` over a list of (vector, doc id) pairs, stopping at
the first error: the sequence of inserts a caller performs in one
transaction (benchmark `insert_objects`). -/
def MTree.insertAll (d : Vec → Vec → ℚ) (t : MTree) :
    List (Vec × DocId) → Except Err MTree
  | [] => .ok t
  | p :: ps =>
    match t.insert d p.1 p.2 with
    | .error e => .error e
    | .ok t1 => t1.insertAll d ps

/-- Modelled from the spec (section 4.4): KNN search. An empty tree returns
the empty sequence. With `k = 0` the result set is full from the start with
an infinitely small worst bound, so the root visit is pruned before any
distance computation: the empty sequence, never an error. Otherwise the
query dimension is checked (a mismatch surfaces as `DimensionMismatch` from
the first distance computation) and the traversal runs, returning (doc id,
distance) pairs ascending by distance. -/
def MTree.knnSearch (d : Vec → Vec → ℚ) (t : MTree) (q : Vec) (k : Nat) :
    Except Err (List (DocId × ℚ)) :=
  match t.root with
  | none => .ok []
  | some root =>
    if k = 0 then .ok []
    else if root.dimsOk q.length then
      .ok ((searchGo d q k root []).map (fun p => (p.2, p.1)))
    else .error .DimensionMismatch

/-- The brute-force linear scan the spec's exactness property compares
against (spec section 8, "Exactness"): sort every stored (distance, doc)
pair ascending by true distance and keep the first `k`. -/
def bruteForce (d : Vec → Vec → ℚ) (t : MTree) (q : Vec) (k : Nat) : List (ℚ × DocId) :=
  match t.root with
  | none => []
  | some root => ((root.pairs d q).mergeSort (fun a b => decide (a.1 ≤ b.1))).take k

/-- The coverage invariant (spec section 3, "Routing Node", and section 8):
every vector reachable under a routing entry's subtree lies within its
covering radius of its pivot, recursively at every level. -/
def Covers (d : Vec → Vec → ℚ) : Tree → Prop
  | .leaf _ => True
  | .routing [] => True
  | .routing (e :: es) =>
    (∀ x ∈ e.subtree.vecs, d e.pivot x ≤ e.radius) ∧ Covers d e.subtree ∧
      Covers d (.routing es)
termination_by t => sizeOf t
decreasing_by
  · have := REntry.sizeOf_subtree_lt e
    simp only [Tree.routing.sizeOf_spec, List.cons.sizeOf_spec]
    omega
  · simp only [Tree.routing.sizeOf_spec, List.cons.sizeOf_spec]
    omega

/-- The largest number of entries of any node in the tree: the capacity
invariant (spec section 8) is `maxFan t ≤ m`. -/
def Tree.maxFan : Tree → Nat
  | .leaf es => es.length
  | .routing [] => 0
  | .routing (e :: es) => max (max (es.length + 1) e.subtree.maxFan) (Tree.routing es).maxFan
termination_by t => sizeOf t
decreasing_by
  · have := REntry.sizeOf_subtree_lt e
    simp only [Tree.routing.sizeOf_spec, List.cons.sizeOf_spec]
    omega
  · simp only [Tree.routing.sizeOf_spec, List.cons.sizeOf_spec]
    omega

/-- Within any single leaf, entries hold pairwise distinct vectors: the
structural consequence of dedup-by-vector-value at the target leaf (spec
section 4.3 step 2). -/
def LeafDistinct : Tree → Prop
  | .leaf es => es.Pairwise (fun a b => a.vector ≠ b.vector)
  | .routing [] => True
  | .routing (e :: es) => LeafDistinct e.subtree ∧ LeafDistinct (Tree.routing es)
termination_by t => sizeOf t
decreasing_by
  · have := REntry.sizeOf_subtree_lt e
    simp only [Tree.routing.sizeOf_spec, List.cons.sizeOf_spec]
    omega
  · simp only [Tree.routing.sizeOf_spec, List.cons.sizeOf_spec]
    omega

theorem Tree.entries_routing (es : List REntry) :
    (Tree.routing es).entries = es.flatMap (fun e => e.subtree.entries) := by
  induction es with
  | nil => rw [Tree.entries]; rfl
  | cons e es ih => rw [Tree.entries, ih]; rfl

theorem Tree.vecs_routing (es : List REntry) :
    (Tree.routing es).vecs = es.flatMap (fun e => e.subtree.vecs) := by
  induction es with
  | nil => rw [Tree.vecs]; rfl
  | cons e es ih => rw [Tree.vecs, ih]; rfl

theorem Tree.vecs_eq_entries_map (t : Tree) :
    t.vecs = t.entries.map LeafEntry.vector := by
  induction t using Tree.vecs.induct with
  | case1 es => rw [Tree.vecs, Tree.entries]
  | case2 => rw [Tree.vecs, Tree.entries]; rfl
  | case3 e es ih1 ih2 =>
    rw [Tree.vecs, Tree.entries, ih1, ih2, List.map_append]

theorem Covers_routing {d : Vec → Vec → ℚ} {es : List REntry} :
    Covers d (.routing es) ↔
      ∀ e ∈ es, (∀ x ∈ e.subtree.vecs, d e.pivot x ≤ e.radius) ∧ Covers d e.subtree := by
  induction es with
  | nil => rw [Covers]; simp
  | cons e es ih =>
    rw [Covers]
    constructor
    · rintro ⟨h1, h2, h3⟩ f hf
      rcases List.mem_cons.1 hf with rfl | hf
      · exact ⟨h1, h2⟩
      · exact ih.1 h3 f hf
    · intro h
      exact ⟨(h e (List.mem_cons_self e es)).1, (h e (List.mem_cons_self e es)).2,
        ih.2 (fun f hf => h f (List.mem_cons_of_mem e hf))⟩

theorem Covers_leaf {d : Vec → Vec → ℚ} {es : List LeafEntry} :
    Covers d (.leaf es) := by
  rw [Covers]
  trivial

theorem maxFan_routing {es : List REntry} {m : Nat} :
    (Tree.routing es).maxFan ≤ m ↔
      es.length ≤ m ∧ ∀ e ∈ es, e.subtree.maxFan ≤ m := by
  induction es with
  | nil => rw [Tree.maxFan]; simp
  | cons e es ih =>
    rw [Tree.maxFan]
    simp only [max_le_iff, List.length_cons, List.mem_cons]
    constructor
    · rintro ⟨⟨h1, h2⟩, h3⟩
      exact ⟨h1, fun f hf => hf.elim (fun hh => hh ▸ h2) (fun hh => (ih.1 h3).2 f hh)⟩
    · intro ⟨h1, h2⟩
      exact ⟨⟨h1, h2 e (Or.inl rfl)⟩,
        ih.2 ⟨Nat.le_of_succ_le h1, fun f hf => h2 f (Or.inr hf)⟩⟩

theorem LeafDistinct_routing {es : List REntry} :
    LeafDistinct (.routing es) ↔ ∀ e ∈ es, LeafDistinct e.subtree := by
  induction es with
  | nil => rw [LeafDistinct]; simp
  | cons e es ih =>
    rw [LeafDistinct]
    simp only [List.mem_cons, ih]
    constructor
    · rintro ⟨h1, h2⟩ f hf
      exact hf.elim (fun hh => hh ▸ h1) (fun hh => h2 f hh)
    · intro h
      exact ⟨h e (Or.inl rfl), fun f hf => h f (Or.inr hf)⟩

theorem dimsOk_routing {n : Nat} {es : List REntry} :
    (Tree.routing es).dimsOk n = true ↔
      ∀ e ∈ es, e.pivot.length = n ∧ e.subtree.dimsOk n = true := by
  induction es with
  | nil => rw [Tree.dimsOk]; simp
  | cons e es ih =>
    rw [Tree.dimsOk]
    simp only [Bool.and_eq_true, beq_iff_eq, List.mem_cons, ih]
    constructor
    · rintro ⟨⟨h1, h2⟩, h3⟩ f hf
      exact hf.elim (fun hh => hh ▸ ⟨h1, h2⟩) (fun hh => h3 f hh)
    · intro h
      exact ⟨⟨(h e (Or.inl rfl)).1, (h e (Or.inl rfl)).2⟩, fun f hf => h f (Or.inr hf)⟩

theorem dimsOk_leaf {n : Nat} {es : List LeafEntry} :
    (Tree.leaf es).dimsOk n = true ↔ ∀ e ∈ es, e.vector.length = n := by
  rw [Tree.dimsOk]
  simp [List.all_eq_true]

theorem dimsOk_vecs {n : Nat} {t : Tree} (h : t.dimsOk n = true) :
    ∀ x ∈ t.vecs, x.length = n := by
  induction t using Tree.vecs.induct with
  | case1 es =>
    rw [Tree.vecs]
    intro x hx
    obtain ⟨e, he, rfl⟩ := List.mem_map.1 hx
    exact (dimsOk_leaf.1 h) e he
  | case2 =>
    rw [Tree.vecs]
    intro x hx
    simp at hx
  | case3 e es ih1 ih2 =>
    rw [Tree.vecs]
    intro x hx
    have hh := dimsOk_routing.1 h
    rcases List.mem_append.1 hx with hx | hx
    · exact ih1 (hh e (List.mem_cons_self e es)).2 x hx
    · exact ih2 (dimsOk_routing.2 (fun f hf => hh f (List.mem_cons_of_mem e hf))) x hx

theorem qmax0_ge {x : ℚ} {l : List ℚ} (h : x ∈ l) : x ≤ qmax0 l := by
  induction l with
  | nil => simp at h
  | cons a l ih =>
    rw [qmax0]
    rcases List.mem_cons.1 h with rfl | h
    · exact le_max_left _ _
    · exact le_trans (ih h) (le_max_right _ _)

theorem pickFarthest_mem {α : Type} {f : α → α → ℚ} {l : List (α × α)} {p : α × α}
    (h : pickFarthest f l = some p) : p ∈ l := by
  induction l generalizing p with
  | nil => simp [pickFarthest] at h
  | cons a l ih =>
    rw [pickFarthest] at h
    rcases hrec : pickFarthest f l with _ | q <;> rw [hrec] at h <;> dsimp only at h
    · cases h; exact List.mem_cons_self _ _
    · split at h
      · cases h; exact List.mem_cons_of_mem _ (ih hrec)
      · cases h; exact List.mem_cons_self _ _

theorem pickFarthest_isSome {α : Type} {f : α → α → ℚ} {l : List (α × α)}
    (h : l ≠ []) : ∃ p, pickFarthest f l = some p := by
  cases l with
  | nil => exact absurd rfl h
  | cons a l =>
    rw [pickFarthest]
    rcases hrec : pickFarthest f l with _ | q <;> dsimp only
    · exact ⟨a, rfl⟩
    · by_cases hf : f a.1 a.2 < f q.1 q.2
      · rw [if_pos hf]; exact ⟨q, rfl⟩
      · rw [if_neg hf]; exact ⟨a, rfl⟩

theorem allPairs_ne_nil {α : Type} {a b : α} {l : List α} :
    allPairs (a :: b :: l) ≠ [] := by
  rw [allPairs]
  simp

theorem allPairs_mem {α : Type} {l : List α} {p : α × α} (h : p ∈ allPairs l) :
    ∃ l1 l2 l3, l = l1 ++ p.1 :: l2 ++ p.2 :: l3 := by
  induction l generalizing p with
  | nil => simp [allPairs] at h
  | cons a l ih =>
    rw [allPairs] at h
    rcases List.mem_append.1 h with h | h
    · obtain ⟨b, hb, rfl⟩ := List.mem_map.1 h
      obtain ⟨l2, l3, rfl⟩ := List.append_of_mem hb
      exact ⟨[], l2, l3, rfl⟩
    · obtain ⟨l1, l2, l3, rfl⟩ := ih h
      exact ⟨a :: l1, l2, l3, rfl⟩

theorem enumFrom_fst_lt_of_append {α : Type} {n : Nat} {l : List α}
    {l1 l2 l3 : List (Nat × α)} {x y : Nat × α}
    (h : l.enumFrom n = l1 ++ x :: l2 ++ y :: l3) : x.1 < y.1 := by
  induction l generalizing n l1 with
  | nil => simp at h
  | cons a l ih =>
    rw [List.enumFrom] at h
    cases l1 with
    | nil =>
      rw [List.nil_append, List.cons_append] at h
      injection h with h1 h2
      have hy : y ∈ l.enumFrom (n + 1) := by
        rw [h2]
        simp
      have h3 := List.le_fst_of_mem_enumFrom hy
      have h4 : x.1 = n := by rw [← h1]
      omega
    | cons b l1 =>
      rw [List.cons_append] at h
      injection h with h1 h2
      exact ih h2

theorem mem_of_enumFrom_append {α : Type} {n : Nat} {l : List α}
    {l1 l2 : List (Nat × α)} {x : Nat × α}
    (h : l.enumFrom n = l1 ++ x :: l2) : x ∈ l.enumFrom n := by
  rw [h]
  simp

theorem allPairs_enum_spec {α : Type} {es : List α} {x y : Nat × α}
    (h : (x, y) ∈ allPairs es.enum) :
    x ∈ es.enum ∧ y ∈ es.enum ∧ x.1 < y.1 := by
  obtain ⟨l1, l2, l3, heq⟩ := allPairs_mem h
  dsimp only at heq
  have hx : x ∈ es.enum := by
    rw [heq]
    simp
  have hy : y ∈ es.enum := by
    rw [heq]
    simp
  exact ⟨hx, hy, enumFrom_fst_lt_of_append (n := 0) heq⟩

theorem splitNode_spec {α : Type} (d : Vec → Vec → ℚ) (vecOf : α → Vec)
    (setPD : α → ℚ → α) (extra : α → ℚ) (es : List α) (hlen : 2 ≤ es.length)
    {h1 h2 : Half α} (hsplit : splitNode d vecOf setPD extra es = (h1, h2)) :
    ∃ raw1 raw2 : List α,
      h1.entries = raw1.map (fun e => setPD e (d h1.pivot (vecOf e))) ∧
      h2.entries = raw2.map (fun e => setPD e (d h2.pivot (vecOf e))) ∧
      (raw1 ++ raw2).Perm es ∧ raw1 ≠ [] ∧ raw2 ≠ [] ∧
      (∀ a ∈ raw1, d h1.pivot (vecOf a) + extra a ≤ h1.radius) ∧
      (∀ a ∈ raw2, d h2.pivot (vecOf a) + extra a ≤ h2.radius) ∧
      (∃ a ∈ es, h1.pivot = vecOf a) ∧ (∃ a ∈ es, h2.pivot = vecOf a) := by
  have hne : allPairs es.enum ≠ [] := by
    match es, hlen with
    | a :: b :: l, _ =>
      show allPairs ((0, a) :: (b :: l).enumFrom 1) ≠ []
      rw [List.enumFrom]
      exact allPairs_ne_nil
  obtain ⟨⟨x1, x2⟩, hpick⟩ :=
    pickFarthest_isSome (f := fun x y => d (vecOf x.2) (vecOf y.2)) hne
  have hx := pickFarthest_mem hpick
  obtain ⟨hx1, hx2, hxlt⟩ := allPairs_enum_spec hx
  unfold splitNode at hsplit
  rw [hpick] at hsplit
  dsimp only at hsplit
  obtain ⟨rfl, rfl⟩ : h1 = _ ∧ h2 = _ := by
    constructor
    · exact (Prod.mk.injEq .. ▸ hsplit.symm).1
    · exact (Prod.mk.injEq .. ▸ hsplit.symm).2
  refine ⟨(es.enum.filter (splitPred d vecOf x1.1 x2.1 (vecOf x1.2) (vecOf x2.2))).map Prod.snd,
    (es.enum.filter (fun y => !splitPred d vecOf x1.1 x2.1 (vecOf x1.2) (vecOf x2.2) y)).map Prod.snd,
    rfl, rfl, ?_, ?_, ?_, ?_, ?_, ?_, ?_⟩
  · rw [← List.map_append]
    have hp := List.filter_append_perm
      (splitPred d vecOf x1.1 x2.1 (vecOf x1.2) (vecOf x2.2)) es.enum
    have := hp.map Prod.snd
    rwa [List.enum_map_snd] at this
  · have hx1f : x1 ∈ es.enum.filter (splitPred d vecOf x1.1 x2.1 (vecOf x1.2) (vecOf x2.2)) := by
      refine List.mem_filter.2 ⟨hx1, ?_⟩
      simp [splitPred]
    exact List.ne_nil_of_mem (List.mem_map_of_mem Prod.snd hx1f)
  · have hx2f : x2 ∈ es.enum.filter
        (fun y => !splitPred d vecOf x1.1 x2.1 (vecOf x1.2) (vecOf x2.2) y) := by
      refine List.mem_filter.2 ⟨hx2, ?_⟩
      have : x2.1 ≠ x1.1 := by omega
      simp [splitPred, this]
    exact List.ne_nil_of_mem (List.mem_map_of_mem Prod.snd hx2f)
  · intro a ha
    exact qmax0_ge (List.mem_map_of_mem _ ha)
  · intro a ha
    exact qmax0_ge (List.mem_map_of_mem _ ha)
  · exact ⟨x1.2, List.snd_mem_of_mem_enumFrom hx1, rfl⟩
  · exact ⟨x2.2, List.snd_mem_of_mem_enumFrom hx2, rfl⟩

/-- The master invariant of a (sub)tree: dimensions uniform, coverage
invariant, capacity invariant, per-leaf vector distinctness. -/
def InvT (d : Vec → Vec → ℚ) (n m : Nat) (t : Tree) : Prop :=
  t.dimsOk n = true ∧ Covers d t ∧ t.maxFan ≤ m ∧ LeafDistinct t

/-- What the master invariant requires of a single routing entry. -/
def EntryOk (d : Vec → Vec → ℚ) (n m : Nat) (e : REntry) : Prop :=
  e.pivot.length = n ∧ (∀ x ∈ e.subtree.vecs, d e.pivot x ≤ e.radius) ∧
    InvT d n m e.subtree

theorem InvT_leaf_iff {d n m} {es : List LeafEntry} :
    InvT d n m (.leaf es) ↔
      (∀ e ∈ es, e.vector.length = n) ∧ es.length ≤ m ∧
        es.Pairwise (fun a b => a.vector ≠ b.vector) := by
  unfold InvT
  rw [dimsOk_leaf, Tree.maxFan, LeafDistinct]
  have : Covers d (.leaf es) := Covers_leaf
  tauto

theorem InvT_routing_iff {d n m} {es : List REntry} :
    InvT d n m (.routing es) ↔
      es.length ≤ m ∧ ∀ e ∈ es, EntryOk d n m e := by
  unfold InvT EntryOk InvT
  rw [dimsOk_routing, Covers_routing, maxFan_routing, LeafDistinct_routing]
  constructor
  · rintro ⟨h1, h2, ⟨h3, h4⟩, h5⟩
    exact ⟨h3, fun e he => ⟨(h1 e he).1, (h2 e he).1,
      (h1 e he).2, (h2 e he).2, h4 e he, h5 e he⟩⟩
  · rintro ⟨h1, h2⟩
    exact ⟨fun e he => ⟨(h2 e he).1, (h2 e he).2.2.1⟩,
      fun e he => ⟨(h2 e he).2.1, (h2 e he).2.2.2.1⟩,
      ⟨h1, fun e he => (h2 e he).2.2.2.2.1⟩,
      fun e he => (h2 e he).2.2.2.2.2⟩

theorem REntry.setPD_pivot (e : REntry) (pd : ℚ) : (e.setPD pd).pivot = e.pivot := rfl

theorem REntry.setPD_radius (e : REntry) (pd : ℚ) : (e.setPD pd).radius = e.radius := rfl

theorem REntry.setPD_subtree (e : REntry) (pd : ℚ) : (e.setPD pd).subtree = e.subtree := rfl

theorem LeafEntry.setPD_vector (e : LeafEntry) (pd : ℚ) : (e.setPD pd).vector = e.vector := rfl

theorem LeafEntry.setPD_docs (e : LeafEntry) (pd : ℚ) : (e.setPD pd).docs = e.docs := rfl

theorem vecs_leaf (es : List LeafEntry) :
    (Tree.leaf es).vecs = es.map LeafEntry.vector := by
  rw [Tree.vecs]

theorem splitLeaf_inv {d : Vec → Vec → ℚ} {n m : Nat} {es : List LeafEntry}
    (hlen2 : 2 ≤ es.length) (hlenm : es.length ≤ m + 1)
    (hdims : ∀ e ∈ es, e.vector.length = n)
    (hdist : es.Pairwise (fun a b => a.vector ≠ b.vector))
    {p1 r1 t1 p2 r2 t2 : _}
    (hres : splitLeaf d es = .split p1 r1 t1 p2 r2 t2) :
    InvT d n m t1 ∧ InvT d n m t2 ∧ p1.length = n ∧ p2.length = n ∧
    (∀ x ∈ t1.vecs, d p1 x ≤ r1) ∧ (∀ x ∈ t2.vecs, d p2 x ≤ r2) ∧
    (∀ x, x ∈ t1.vecs ++ t2.vecs → x ∈ es.map LeafEntry.vector) := by
  unfold splitLeaf at hres
  rcases hsp : splitNode d LeafEntry.vector LeafEntry.setPD (fun _ => 0) es with ⟨g1, g2⟩
  rw [hsp] at hres
  dsimp only at hres
  obtain ⟨hp1, hr1, ht1, hp2, hr2, ht2⟩ :
      g1.pivot = p1 ∧ g1.radius = r1 ∧ Tree.leaf g1.entries = t1 ∧
        g2.pivot = p2 ∧ g2.radius = r2 ∧ Tree.leaf g2.entries = t2 := by
    cases hres
    exact ⟨rfl, rfl, rfl, rfl, rfl, rfl⟩
  subst hp1; subst hr1; subst ht1; subst hp2; subst hr2; subst ht2
  obtain ⟨raw1, raw2, he1, he2, hperm, hne1, hne2, hrad1, hrad2,
    ⟨a1, ha1, hpa1⟩, ⟨a2, ha2, hpa2⟩⟩ :=
    splitNode_spec d LeafEntry.vector LeafEntry.setPD (fun _ => 0) es hlen2 hsp
  have hmem1 : ∀ a ∈ raw1, a ∈ es := fun a ha =>
    hperm.mem_iff.1 (List.mem_append_left _ ha)
  have hmem2 : ∀ a ∈ raw2, a ∈ es := fun a ha =>
    hperm.mem_iff.1 (List.mem_append_right _ ha)
  have hlensum : raw1.length + raw2.length = es.length := by
    have := hperm.length_eq
    simpa using this
  have hl1 : 1 ≤ raw1.length := by
    cases raw1 with
    | nil => exact absurd rfl hne1
    | cons a l => simp
  have hl2 : 1 ≤ raw2.length := by
    cases raw2 with
    | nil => exact absurd rfl hne2
    | cons a l => simp
  have hpairs : (raw1 ++ raw2).Pairwise (fun a b => a.vector ≠ b.vector) :=
    (hperm.pairwise_iff (fun h hh => h hh.symm)).2 hdist
  have hvec1 : (Tree.leaf g1.entries).vecs = raw1.map LeafEntry.vector := by
    rw [vecs_leaf, he1, List.map_map]
    rfl
  have hvec2 : (Tree.leaf g2.entries).vecs = raw2.map LeafEntry.vector := by
    rw [vecs_leaf, he2, List.map_map]
    rfl
  refine ⟨?_, ?_, ?_, ?_, ?_, ?_, ?_⟩
  · rw [InvT_leaf_iff, he1]
    refine ⟨?_, ?_, ?_⟩
    · intro e he
      obtain ⟨a, ha, rfl⟩ := List.mem_map.1 he
      rw [LeafEntry.setPD_vector]
      exact hdims a (hmem1 a ha)
    · rw [List.length_map]
      omega
    · rw [List.pairwise_map]
      have := (List.pairwise_append.1 hpairs).1
      exact this.imp (fun hab => by simpa [LeafEntry.setPD_vector] using hab)
  · rw [InvT_leaf_iff, he2]
    refine ⟨?_, ?_, ?_⟩
    · intro e he
      obtain ⟨a, ha, rfl⟩ := List.mem_map.1 he
      rw [LeafEntry.setPD_vector]
      exact hdims a (hmem2 a ha)
    · rw [List.length_map]
      omega
    · rw [List.pairwise_map]
      have := (List.pairwise_append.1 hpairs).2.1
      exact this.imp (fun hab => by simpa [LeafEntry.setPD_vector] using hab)
  · rw [hpa1]
    exact hdims a1 ha1
  · rw [hpa2]
    exact hdims a2 ha2
  · intro x hx
    rw [hvec1] at hx
    obtain ⟨a, ha, rfl⟩ := List.mem_map.1 hx
    have := hrad1 a ha
    simpa using this
  · intro x hx
    rw [hvec2] at hx
    obtain ⟨a, ha, rfl⟩ := List.mem_map.1 hx
    have := hrad2 a ha
    simpa using this
  · intro x hx
    rcases List.mem_append.1 hx with hx | hx
    · rw [hvec1] at hx
      obtain ⟨a, ha, rfl⟩ := List.mem_map.1 hx
      exact List.mem_map_of_mem _ (hmem1 a ha)
    · rw [hvec2] at hx
      obtain ⟨a, ha, rfl⟩ := List.mem_map.1 hx
      exact List.mem_map_of_mem _ (hmem2 a ha)

theorem EntryOk_setPD {d n m} {e : REntry} {pd : ℚ} (h : EntryOk d n m e) :
    EntryOk d n m (e.setPD pd) := by
  unfold EntryOk at h ⊢
  rw [REntry.setPD_pivot, REntry.setPD_radius, REntry.setPD_subtree]
  exact h

theorem splitRouting_inv {d : Vec → Vec → ℚ} (hd : IsMetric d) {n m : Nat}
    {es : List REntry}
    (hlen2 : 2 ≤ es.length) (hlenm : es.length ≤ m + 1)
    (hok : ∀ e ∈ es, EntryOk d n m e)
    {p1 r1 t1 p2 r2 t2 : _}
    (hres : splitRouting d es = .split p1 r1 t1 p2 r2 t2) :
    InvT d n m t1 ∧ InvT d n m t2 ∧ p1.length = n ∧ p2.length = n ∧
    (∀ x ∈ t1.vecs, d p1 x ≤ r1) ∧ (∀ x ∈ t2.vecs, d p2 x ≤ r2) ∧
    (∀ x, x ∈ t1.vecs ++ t2.vecs → x ∈ (Tree.routing es).vecs) := by
  unfold splitRouting at hres
  rcases hsp : splitNode d REntry.pivot REntry.setPD REntry.radius es with ⟨g1, g2⟩
  rw [hsp] at hres
  dsimp only at hres
  obtain ⟨hp1, hr1, ht1, hp2, hr2, ht2⟩ :
      g1.pivot = p1 ∧ g1.radius = r1 ∧ Tree.routing g1.entries = t1 ∧
        g2.pivot = p2 ∧ g2.radius = r2 ∧ Tree.routing g2.entries = t2 := by
    cases hres
    exact ⟨rfl, rfl, rfl, rfl, rfl, rfl⟩
  subst hp1; subst hr1; subst ht1; subst hp2; subst hr2; subst ht2
  obtain ⟨raw1, raw2, he1, he2, hperm, hne1, hne2, hrad1, hrad2,
    ⟨a1, ha1, hpa1⟩, ⟨a2, ha2, hpa2⟩⟩ :=
    splitNode_spec d REntry.pivot REntry.setPD REntry.radius es hlen2 hsp
  have hmem1 : ∀ a ∈ raw1, a ∈ es := fun a ha =>
    hperm.mem_iff.1 (List.mem_append_left _ ha)
  have hmem2 : ∀ a ∈ raw2, a ∈ es := fun a ha =>
    hperm.mem_iff.1 (List.mem_append_right _ ha)
  have hlensum : raw1.length + raw2.length = es.length := by
    have := hperm.length_eq
    simpa using this
  have hl1 : 1 ≤ raw1.length := by
    cases raw1 with
    | nil => exact absurd rfl hne1
    | cons a l => simp
  have hl2 : 1 ≤ raw2.length := by
    cases raw2 with
    | nil => exact absurd rfl hne2
    | cons a l => simp
  have hpl1 : g1.pivot.length = n := by
    rw [hpa1]
    exact (hok a1 ha1).1
  have hpl2 : g2.pivot.length = n := by
    rw [hpa2]
    exact (hok a2 ha2).1
  have hcover : ∀ (g : Half REntry) (raw : List REntry),
      g.pivot.length = n →
      g.entries = raw.map (fun e => e.setPD (d g.pivot e.pivot)) →
      (∀ a ∈ raw, d g.pivot a.pivot + a.radius ≤ g.radius) →
      (∀ a ∈ raw, a ∈ es) →
      ∀ x ∈ (Tree.routing g.entries).vecs, d g.pivot x ≤ g.radius := by
    intro g raw hgl hge hgr hgm x hx
    rw [Tree.vecs_routing] at hx
    obtain ⟨e1, he1m, hxe⟩ := List.mem_flatMap.1 hx
    rw [hge] at he1m
    obtain ⟨a, ha, rfl⟩ := List.mem_map.1 he1m
    rw [REntry.setPD_subtree] at hxe
    have hoka := hok a (hgm a ha)
    have hxl : x.length = n :=
      dimsOk_vecs hoka.2.2.1 x hxe
    have htri : d g.pivot x ≤ d g.pivot a.pivot + d a.pivot x := by
      refine hd.triangle g.pivot a.pivot x ?_ ?_
      · rw [hgl, hoka.1]
      · rw [hoka.1, hxl]
    have hax : d a.pivot x ≤ a.radius := hoka.2.1 x hxe
    have := hgr a ha
    linarith
  refine ⟨?_, ?_, hpl1, hpl2, ?_, ?_, ?_⟩
  · rw [InvT_routing_iff, he1]
    constructor
    · rw [List.length_map]
      omega
    · intro e he
      obtain ⟨a, ha, rfl⟩ := List.mem_map.1 he
      exact EntryOk_setPD (hok a (hmem1 a ha))
  · rw [InvT_routing_iff, he2]
    constructor
    · rw [List.length_map]
      omega
    · intro e he
      obtain ⟨a, ha, rfl⟩ := List.mem_map.1 he
      exact EntryOk_setPD (hok a (hmem2 a ha))
  · exact hcover g1 raw1 hpl1 he1 hrad1 hmem1
  · exact hcover g2 raw2 hpl2 he2 hrad2 hmem2
  · intro x hx
    rw [Tree.vecs_routing]
    rcases List.mem_append.1 hx with hx | hx
    · rw [Tree.vecs_routing, he1] at hx
      obtain ⟨e1, he1m, hxe⟩ := List.mem_flatMap.1 hx
      obtain ⟨a, ha, rfl⟩ := List.mem_map.1 he1m
      rw [REntry.setPD_subtree] at hxe
      exact List.mem_flatMap.2 ⟨a, hmem1 a ha, hxe⟩
    · rw [Tree.vecs_routing, he2] at hx
      obtain ⟨e1, he1m, hxe⟩ := List.mem_flatMap.1 hx
      obtain ⟨a, ha, rfl⟩ := List.mem_map.1 he1m
      rw [REntry.setPD_subtree] at hxe
      exact List.mem_flatMap.2 ⟨a, hmem2 a ha, hxe⟩

theorem insertAt_inv {d : Vec → Vec → ℚ} (hd : IsMetric d) {m n : Nat} (hm : 1 ≤ m) :
    ∀ (pp : Option Vec) (v : Vec) (doc : DocId) (t : Tree), v.length = n → InvT d n m t →
      (∀ t1, insertAt d m pp v doc t = .single t1 →
        InvT d n m t1 ∧ ∀ x ∈ t1.vecs, x ∈ t.vecs ∨ x = v) ∧
      (∀ p1 r1 t1 p2 r2 t2, insertAt d m pp v doc t = .split p1 r1 t1 p2 r2 t2 →
        InvT d n m t1 ∧ InvT d n m t2 ∧ p1.length = n ∧ p2.length = n ∧
        (∀ x ∈ t1.vecs, d p1 x ≤ r1) ∧ (∀ x ∈ t2.vecs, d p2 x ≤ r2) ∧
        (∀ x, x ∈ t1.vecs ++ t2.vecs → x ∈ t.vecs ∨ x = v)) := by
  refine insertAt.induct d m (motive := fun pp v doc t => v.length = n → InvT d n m t →
      (∀ t1, insertAt d m pp v doc t = .single t1 →
        InvT d n m t1 ∧ ∀ x ∈ t1.vecs, x ∈ t.vecs ∨ x = v) ∧
      (∀ p1 r1 t1 p2 r2 t2, insertAt d m pp v doc t = .split p1 r1 t1 p2 r2 t2 →
        InvT d n m t1 ∧ InvT d n m t2 ∧ p1.length = n ∧ p2.length = n ∧
        (∀ x ∈ t1.vecs, d p1 x ≤ r1) ∧ (∀ x ∈ t2.vecs, d p2 x ≤ r2) ∧
        (∀ x, x ∈ t1.vecs ++ t2.vecs → x ∈ t.vecs ∨ x = v)))
    ?_ ?_ ?_ ?_ ?_ ?_ ?_
  · -- dedup at an existing leaf entry
    intro pp v doc es hany hv hInv
    rw [insertAt, if_pos hany]
    have hvecmap : ∀ e : LeafEntry,
        (if e.vector = v then { e with docs := addDoc doc e.docs } else e).vector
          = e.vector := by
      intro e
      split <;> rfl
    constructor
    · intro t1 ht1
      cases ht1
      obtain ⟨hdims, hlen, hdist⟩ := InvT_leaf_iff.1 hInv
      constructor
      · rw [InvT_leaf_iff]
        refine ⟨?_, ?_, ?_⟩
        · intro e1 he1
          obtain ⟨a, ha, rfl⟩ := List.mem_map.1 he1
          rw [hvecmap]
          exact hdims a ha
        · rw [List.length_map]
          exact hlen
        · rw [List.pairwise_map]
          exact hdist.imp (fun hab => by rw [hvecmap, hvecmap]; exact hab)
      · intro x hx
        rw [vecs_leaf] at hx
        obtain ⟨a, ha, rfl⟩ := List.mem_map.1 hx
        obtain ⟨b, hb, rfl⟩ := List.mem_map.1 ha
        left
        rw [vecs_leaf, hvecmap]
        exact List.mem_map_of_mem _ hb
    · intro p1 r1 t1 p2 r2 t2 ht
      exact InsRes.noConfusion ht
  · -- new leaf entry, no overflow
    intro pp v doc es hany hlen hv hInv
    rw [insertAt, if_neg hany, if_pos hlen]
    have hnotin : ∀ e ∈ es, e.vector ≠ v := by
      intro e he hh
      exact hany (List.any_eq_true.2 ⟨e, he, by simpa using hh⟩)
    obtain ⟨hdims, hlenm, hdist⟩ := InvT_leaf_iff.1 hInv
    constructor
    · intro t1 ht1
      cases ht1
      constructor
      · rw [InvT_leaf_iff]
        refine ⟨?_, ?_, ?_⟩
        · intro e1 he1
          rcases List.mem_append.1 he1 with he1 | he1
          · exact hdims e1 he1
          · rcases List.mem_singleton.1 he1 with rfl
            exact hv
        · rw [List.length_append]
          simpa using hlen
        · rw [List.pairwise_append]
          refine ⟨hdist, List.pairwise_singleton _ _, ?_⟩
          intro a ha b hb
          rcases List.mem_singleton.1 hb with rfl
          exact hnotin a ha
      · intro x hx
        rw [vecs_leaf, List.map_append] at hx
        rcases List.mem_append.1 hx with hx | hx
        · left
          rw [vecs_leaf]
          exact hx
        · right
          simpa using hx
    · intro p1 r1 t1 p2 r2 t2 ht
      exact InsRes.noConfusion ht
  · -- new leaf entry, overflow: leaf split
    intro pp v doc es hany hlen hv hInv
    rw [insertAt, if_neg hany, if_neg hlen]
    have hnotin : ∀ e ∈ es, e.vector ≠ v := by
      intro e he hh
      exact hany (List.any_eq_true.2 ⟨e, he, by simpa using hh⟩)
    obtain ⟨hdims, hlenm, hdist⟩ := InvT_leaf_iff.1 hInv
    constructor
    · intro t1 ht1
      exfalso
      unfold splitLeaf at ht1
      rcases hsp : splitNode d LeafEntry.vector LeafEntry.setPD (fun _ => 0)
          (es ++ [⟨v, [doc], pdOf d pp v⟩]) with ⟨g1, g2⟩
      rw [hsp] at ht1
      exact InsRes.noConfusion ht1
    · intro p1 r1 t1 p2 r2 t2 ht
      have hsplit := splitLeaf_inv (n := n) (m := m) ?_ ?_ ?_ ?_ ht
      · obtain ⟨h1, h2, h3, h4, h5, h6, h7⟩ := hsplit
        refine ⟨h1, h2, h3, h4, h5, h6, ?_⟩
        intro x hx
        have := h7 x hx
        rw [List.map_append] at this
        rcases List.mem_append.1 this with hh | hh
        · left
          rw [vecs_leaf]
          exact hh
        · right
          simpa using hh
      · rw [List.length_append]
        simp only [List.length_singleton]
        omega
      · rw [List.length_append]
        simp only [List.length_singleton]
        omega
      · intro e he
        rcases List.mem_append.1 he with he | he
        · exact hdims e he
        · rcases List.mem_singleton.1 he with rfl
          exact hv
      · rw [List.pairwise_append]
        refine ⟨hdist, List.pairwise_singleton _ _, ?_⟩
        intro a ha b hb
        rcases List.mem_singleton.1 hb with rfl
        exact hnotin a ha
  · -- routing node with no entries: nothing to do
    intro pp v doc es hnone hv hInv
    rw [insertAt, hnone]
    constructor
    · intro t1 ht1
      cases ht1
      exact ⟨hInv, fun x hx => Or.inl hx⟩
    · intro p1 r1 t1 p2 r2 t2 ht
      exact InsRes.noConfusion ht
  · -- child insert returned a single updated subtree
    intro pp v doc es pre e post de h t1r hins ih hv hInv
    obtain ⟨hesEq, hde⟩ := chooseSub_eq h
    have heMem : e ∈ es := by
      rw [hesEq]
      simp
    obtain ⟨hlen_es, hok⟩ := InvT_routing_iff.1 hInv
    have hokE := hok e heMem
    obtain ⟨ihS, _⟩ := ih hv hokE.2.2
    obtain ⟨hInv1, hsub1⟩ := ihS t1r hins
    rw [insertAt, h]
    dsimp only
    rw [hins]
    dsimp only
    constructor
    · intro t1 ht1
      cases ht1
      have hlen2 :
          (pre ++ REntry.mk e.pivot (max e.radius de) e.parentDist t1r :: post).length
            = es.length := by
        rw [hesEq]
        simp
      constructor
      · rw [InvT_routing_iff]
        constructor
        · rw [hlen2]
          exact hlen_es
        · intro f hf
          rcases List.mem_append.1 hf with hf | hf
          · exact hok f (by rw [hesEq]; exact List.mem_append_left _ hf)
          · rcases List.mem_cons.1 hf with rfl | hf
            · refine ⟨hokE.1, ?_, hInv1⟩
              intro x hx
              dsimp only [REntry.pivot, REntry.radius, REntry.subtree] at hx ⊢
              rcases hsub1 x hx with hx1 | rfl
              · exact le_trans (hokE.2.1 x hx1) (le_max_left _ _)
              · rw [hde]
                exact le_max_right _ _
            · exact hok f
                (by rw [hesEq]; exact List.mem_append_right _ (List.mem_cons_of_mem _ hf))
      · intro x hx
        rw [Tree.vecs_routing] at hx
        obtain ⟨f, hf, hxf⟩ := List.mem_flatMap.1 hx
        rcases List.mem_append.1 hf with hf | hf
        · left
          rw [hesEq, Tree.vecs_routing]
          exact List.mem_flatMap.2 ⟨f, List.mem_append_left _ hf, hxf⟩
        · rcases List.mem_cons.1 hf with rfl | hf
          · dsimp only [REntry.subtree] at hxf
            rcases hsub1 x hxf with hx1 | rfl
            · left
              rw [hesEq, Tree.vecs_routing]
              exact List.mem_flatMap.2 ⟨e, by simp, hx1⟩
            · right
              rfl
          · left
            rw [hesEq, Tree.vecs_routing]
            refine List.mem_flatMap.2 ⟨f, ?_, hxf⟩
            exact List.mem_append_right _ (List.mem_cons_of_mem _ hf)
    · intro p1 r1 t1 p2 r2 t2 ht
      exact InsRes.noConfusion ht
  · -- child split absorbed without overflow
    intro pp v doc es pre e post de h p1r r1r t1r p2r r2r t2r hins hfits ih hv hInv
    obtain ⟨hesEq, hde⟩ := chooseSub_eq h
    have heMem : e ∈ es := by
      rw [hesEq]
      simp
    obtain ⟨hlen_es, hok⟩ := InvT_routing_iff.1 hInv
    have hokE := hok e heMem
    obtain ⟨_, ihSp⟩ := ih hv hokE.2.2
    obtain ⟨hI1, hI2, hp1, hp2, hc1, hc2, hsub⟩ :=
      ihSp p1r r1r t1r p2r r2r t2r hins
    rw [insertAt, h]
    dsimp only
    rw [hins]
    dsimp only
    rw [if_pos hfits]
    constructor
    · intro t1 ht1
      cases ht1
      constructor
      · rw [InvT_routing_iff]
        constructor
        · simp only [List.length_append, List.length_cons]
          omega
        · intro f hf
          rcases List.mem_append.1 hf with hf | hf
          · exact hok f (by rw [hesEq]; exact List.mem_append_left _ hf)
          · rcases List.mem_cons.1 hf with rfl | hf
            · refine ⟨hp1, ?_, hI1⟩
              intro x hx
              dsimp only [REntry.pivot, REntry.radius, REntry.subtree] at hx ⊢
              exact hc1 x hx
            · rcases List.mem_cons.1 hf with rfl | hf
              · refine ⟨hp2, ?_, hI2⟩
                intro x hx
                dsimp only [REntry.pivot, REntry.radius, REntry.subtree] at hx ⊢
                exact hc2 x hx
              · exact hok f
                  (by rw [hesEq]; exact List.mem_append_right _ (List.mem_cons_of_mem _ hf))
      · intro x hx
        rw [Tree.vecs_routing] at hx
        obtain ⟨f, hf, hxf⟩ := List.mem_flatMap.1 hx
        rcases List.mem_append.1 hf with hf | hf
        · left
          rw [hesEq, Tree.vecs_routing]
          exact List.mem_flatMap.2 ⟨f, List.mem_append_left _ hf, hxf⟩
        · rcases List.mem_cons.1 hf with rfl | hf
          · dsimp only [REntry.subtree] at hxf
            rcases hsub x (List.mem_append_left _ hxf) with hx1 | rfl
            · left
              rw [hesEq, Tree.vecs_routing]
              exact List.mem_flatMap.2 ⟨e, by simp, hx1⟩
            · right
              rfl
          · rcases List.mem_cons.1 hf with rfl | hf
            · dsimp only [REntry.subtree] at hxf
              rcases hsub x (List.mem_append_right _ hxf) with hx1 | rfl
              · left
                rw [hesEq, Tree.vecs_routing]
                exact List.mem_flatMap.2 ⟨e, by simp, hx1⟩
              · right
                rfl
            · left
              rw [hesEq, Tree.vecs_routing]
              refine List.mem_flatMap.2 ⟨f, ?_, hxf⟩
              exact List.mem_append_right _ (List.mem_cons_of_mem _ hf)
    · intro p1 r1 t1 p2 r2 t2 ht
      exact InsRes.noConfusion ht
  · -- child split overflowing: routing split
    intro pp v doc es pre e post de h p1r r1r t1r p2r r2r t2r hins hover ih hv hInv
    obtain ⟨hesEq, hde⟩ := chooseSub_eq h
    have heMem : e ∈ es := by
      rw [hesEq]
      simp
    obtain ⟨hlen_es, hok⟩ := InvT_routing_iff.1 hInv
    have hokE := hok e heMem
    obtain ⟨_, ihSp⟩ := ih hv hokE.2.2
    obtain ⟨hI1, hI2, hp1, hp2, hc1, hc2, hsub⟩ :=
      ihSp p1r r1r t1r p2r r2r t2r hins
    have hlenEq : es.length = pre.length + post.length + 1 := by
      rw [hesEq]
      simp only [List.length_append, List.length_cons]
      omega
    have hokNew : ∀ f ∈ pre ++ REntry.mk p1r r1r (pdOf d pp p1r) t1r ::
        REntry.mk p2r r2r (pdOf d pp p2r) t2r :: post, EntryOk d n m f := by
      intro f hf
      rcases List.mem_append.1 hf with hf | hf
      · exact hok f (by rw [hesEq]; exact List.mem_append_left _ hf)
      · rcases List.mem_cons.1 hf with rfl | hf
        · refine ⟨hp1, ?_, hI1⟩
          intro x hx
          dsimp only [REntry.pivot, REntry.radius, REntry.subtree] at hx ⊢
          exact hc1 x hx
        · rcases List.mem_cons.1 hf with rfl | hf
          · refine ⟨hp2, ?_, hI2⟩
            intro x hx
            dsimp only [REntry.pivot, REntry.radius, REntry.subtree] at hx ⊢
            exact hc2 x hx
          · exact hok f
              (by rw [hesEq]; exact List.mem_append_right _ (List.mem_cons_of_mem _ hf))
    have hsubNew : ∀ x, x ∈ (Tree.routing (pre ++ REntry.mk p1r r1r (pdOf d pp p1r) t1r ::
        REntry.mk p2r r2r (pdOf d pp p2r) t2r :: post)).vecs →
        x ∈ (Tree.routing es).vecs ∨ x = v := by
      intro x hx
      rw [Tree.vecs_routing] at hx
      obtain ⟨f, hf, hxf⟩ := List.mem_flatMap.1 hx
      rcases List.mem_append.1 hf with hf | hf
      · left
        rw [hesEq, Tree.vecs_routing]
        exact List.mem_flatMap.2 ⟨f, List.mem_append_left _ hf, hxf⟩
      · rcases List.mem_cons.1 hf with rfl | hf
        · dsimp only [REntry.subtree] at hxf
          rcases hsub x (List.mem_append_left _ hxf) with hx1 | rfl
          · left
            rw [hesEq, Tree.vecs_routing]
            exact List.mem_flatMap.2 ⟨e, by simp, hx1⟩
          · right
            rfl
        · rcases List.mem_cons.1 hf with rfl | hf
          · dsimp only [REntry.subtree] at hxf
            rcases hsub x (List.mem_append_right _ hxf) with hx1 | rfl
            · left
              rw [hesEq, Tree.vecs_routing]
              exact List.mem_flatMap.2 ⟨e, by simp, hx1⟩
            · right
              rfl
          · left
            rw [hesEq, Tree.vecs_routing]
            refine List.mem_flatMap.2 ⟨f, ?_, hxf⟩
            exact List.mem_append_right _ (List.mem_cons_of_mem _ hf)
    rw [insertAt, h]
    dsimp only
    rw [hins]
    dsimp only
    rw [if_neg hover]
    constructor
    · intro t1 ht1
      exfalso
      unfold splitRouting at ht1
      rcases hsp : splitNode d REntry.pivot REntry.setPD REntry.radius
          (pre ++ REntry.mk p1r r1r (pdOf d pp p1r) t1r ::
            REntry.mk p2r r2r (pdOf d pp p2r) t2r :: post) with ⟨g1, g2⟩
      rw [hsp] at ht1
      exact InsRes.noConfusion ht1
    · intro p1 r1 t1 p2 r2 t2 ht
      have hres := splitRouting_inv hd (n := n) (m := m) ?_ ?_ hokNew ht
      · obtain ⟨h1, h2, h3, h4, h5, h6, h7⟩ := hres
        exact ⟨h1, h2, h3, h4, h5, h6, fun x hx => hsubNew x (h7 x hx)⟩
      · simp only [List.length_append, List.length_cons]
        omega
      · simp only [List.length_append, List.length_cons]
        omega

/-- The whole-index invariant: an empty tree, or a root satisfying the
master invariant for some uniform dimension. -/
def InvM (d : Vec → Vec → ℚ) (t : MTree) : Prop :=
  match t.root with
  | none => True
  | some root => ∃ n, InvT d n t.state.capacity root

theorem MTree_insert_inv {d : Vec → Vec → ℚ} (hd : IsMetric d) {t t' : MTree}
    (hm : 2 ≤ t.state.capacity) (hInv : InvM d t) {v : Vec} {doc : DocId}
    (hok : MTree.insert d t v doc = .ok t') :
    InvM d t' ∧ t'.state = t.state := by
  unfold MTree.insert at hok
  rcases hroot : t.root with _ | root <;> rw [hroot] at hok <;> dsimp only at hok
  · cases hok
    constructor
    · show ∃ n, InvT d n t.state.capacity (.leaf [⟨v, [doc], 0⟩])
      refine ⟨v.length, ?_⟩
      rw [InvT_leaf_iff]
      refine ⟨?_, ?_, ?_⟩
      · intro e he
        rcases List.mem_singleton.1 he with rfl
        rfl
      · simp only [List.length_singleton]
        omega
      · exact List.pairwise_singleton _ _
    · rfl
  · by_cases hdim : root.dimsOk v.length = true
    · rw [if_pos hdim] at hok
      cases hok
      obtain ⟨n0, hI⟩ : ∃ n, InvT d n t.state.capacity root := by
        have := hInv
        unfold InvM at this
        rw [hroot] at this
        exact this
      have hI' : InvT d v.length t.state.capacity root := ⟨hdim, hI.2⟩
      have hm1 : 1 ≤ t.state.capacity := by omega
      have hmain := insertAt_inv hd hm1 none v doc root rfl hI'
      constructor
      · show ∃ n, InvT d n t.state.capacity (insertTree d t.state.capacity root v doc)
        refine ⟨v.length, ?_⟩
        unfold insertTree
        rcases hres : insertAt d t.state.capacity none v doc root with t1 | ⟨p1, r1, t1, p2, r2, t2⟩
        · exact (hmain.1 t1 hres).1
        · obtain ⟨hI1, hI2, hp1, hp2, hc1, hc2, hsub⟩ := hmain.2 p1 r1 t1 p2 r2 t2 hres
          rw [InvT_routing_iff]
          constructor
          · simp only [List.length_cons, List.length_nil]
            omega
          · intro f hf
            rcases List.mem_cons.1 hf with rfl | hf
            · refine ⟨hp1, ?_, hI1⟩
              intro x hx
              dsimp only [REntry.pivot, REntry.radius, REntry.subtree] at hx ⊢
              exact hc1 x hx
            · rcases List.mem_singleton.1 hf with rfl
              refine ⟨hp2, ?_, hI2⟩
              intro x hx
              dsimp only [REntry.pivot, REntry.radius, REntry.subtree] at hx ⊢
              exact hc2 x hx
      · rfl
    · rw [if_neg hdim] at hok
      exact Except.noConfusion hok

theorem MTree_insertAll_inv {d : Vec → Vec → ℚ} (hd : IsMetric d) {t t' : MTree}
    (hm : 2 ≤ t.state.capacity) (hInv : InvM d t) {ps : List (Vec × DocId)}
    (hok : MTree.insertAll d t ps = .ok t') :
    InvM d t' ∧ t'.state = t.state := by
  induction ps generalizing t with
  | nil =>
    rw [MTree.insertAll] at hok
    cases hok
    exact ⟨hInv, rfl⟩
  | cons p ps ih =>
    rw [MTree.insertAll] at hok
    rcases hstep : MTree.insert d t p.1 p.2 with e1 | t1 <;> rw [hstep] at hok
    · exact Except.noConfusion hok
    · dsimp only at hok
      obtain ⟨hInv1, hstate1⟩ := MTree_insert_inv hd hm hInv hstep
      obtain ⟨hInv2, hstate2⟩ := ih (t := t1) (by rw [hstate1]; exact hm) hInv1 hok
      exact ⟨hInv2, by rw [hstate2, hstate1]⟩

/-- The key correctness predicate of the bounded result set: `res` is a
sorted selection of `min k |P|` elements of the processed multiset `P`,
with everything left out at least as far as everything kept. -/
def Sel (k : Nat) (P res : List (ℚ × DocId)) : Prop :=
  res.Sorted (fun a b => a.1 ≤ b.1) ∧ res.length = min k P.length ∧
    ∃ rest, (res ++ rest).Perm P ∧ ∀ a ∈ res, ∀ b ∈ rest, a.1 ≤ b.1

theorem Sel_perm {k : Nat} {P P' res : List (ℚ × DocId)} (hp : P.Perm P')
    (h : Sel k P res) : Sel k P' res := by
  obtain ⟨h1, h2, rest, h3, h4⟩ := h
  exact ⟨h1, by rw [h2, hp.length_eq], rest, h3.trans hp, h4⟩

theorem Sel_nil {k : Nat} : Sel k [] [] := by
  refine ⟨List.sorted_nil, by simp, [], by simp, by simp⟩

theorem insSorted_perm (p : ℚ × DocId) (l : List (ℚ × DocId)) :
    (insSorted p l).Perm (p :: l) := by
  induction l with
  | nil => rfl
  | cons q qs ih =>
    rw [insSorted]
    split
    · rfl
    · exact (ih.cons q).trans (List.Perm.swap p q qs)

theorem insSorted_length (p : ℚ × DocId) (l : List (ℚ × DocId)) :
    (insSorted p l).length = l.length + 1 := by
  have := (insSorted_perm p l).length_eq
  simpa using this

theorem insSorted_sorted {p : ℚ × DocId} {l : List (ℚ × DocId)}
    (hs : l.Sorted (fun a b => a.1 ≤ b.1)) :
    (insSorted p l).Sorted (fun a b => a.1 ≤ b.1) := by
  induction l with
  | nil => exact List.sorted_singleton p
  | cons q qs ih =>
    rw [insSorted]
    obtain ⟨hq, hqs⟩ := List.pairwise_cons.1 hs
    split
    · rename_i hlt
      refine List.pairwise_cons.2 ⟨?_, hs⟩
      intro b hb
      rcases List.mem_cons.1 hb with rfl | hb
      · exact le_of_lt hlt
      · exact le_trans (le_of_lt hlt) (hq b hb)
    · rename_i hge
      refine List.pairwise_cons.2 ⟨?_, ih hqs⟩
      intro b hb
      have hb2 := (insSorted_perm p qs).mem_iff.1 hb
      rcases List.mem_cons.1 hb2 with rfl | hb2
      · exact le_of_not_lt hge
      · exact hq b hb2

theorem mem_of_getLast?_eq {α : Type} {l : List α} {x : α}
    (h : l.getLast? = some x) : x ∈ l := by
  obtain ⟨hne, heq⟩ := List.mem_getLast?_eq_getLast (show x ∈ l.getLast? from h)
  rw [heq]
  exact List.getLast_mem hne

theorem sorted_le_worst {res : List (ℚ × DocId)}
    (hs : res.Sorted (fun a b => a.1 ≤ b.1)) {a : ℚ × DocId} (ha : a ∈ res)
    {w : ℚ} (hw : worstOf res = some w) : a.1 ≤ w := by
  induction res with
  | nil => simp at ha
  | cons b rs ih =>
    obtain ⟨hb, hrs⟩ := List.pairwise_cons.1 hs
    cases rs with
    | nil =>
      rcases List.mem_singleton.1 ha with rfl
      unfold worstOf at hw
      simp only [List.getLast?_singleton, Option.map_some] at hw
      cases hw
      rfl
    | cons c rs1 =>
      have hw2 : worstOf (c :: rs1) = some w := by
        unfold worstOf at hw ⊢
        rwa [List.getLast?_cons_cons] at hw
      rcases List.mem_cons.1 ha with rfl | ha
      · have hcmem : ∃ x ∈ c :: rs1, x.1 = w := by
          unfold worstOf at hw2
          rcases hlast : (c :: rs1).getLast? with _ | x
          · rw [hlast] at hw2
            exact Option.noConfusion hw2
          · rw [hlast] at hw2
            simp only [Option.map_some'] at hw2
            cases hw2
            exact ⟨x, mem_of_getLast?_eq hlast, rfl⟩
        obtain ⟨x, hx, rfl⟩ := hcmem
        exact hb x hx
      · exact ih hrs ha hw2

theorem worstOf_some_of_ne_nil {res : List (ℚ × DocId)} (h : res ≠ []) :
    ∃ w, worstOf res = some w := by
  unfold worstOf
  rcases hlast : res.getLast? with _ | x
  · rw [List.getLast?_eq_none_iff] at hlast
    exact absurd hlast h
  · exact ⟨x.1, rfl⟩

theorem worstOf_mem {res : List (ℚ × DocId)} {w : ℚ} (h : worstOf res = some w) :
    ∃ z ∈ res, z.1 = w := by
  unfold worstOf at h
  rcases hlast : res.getLast? with _ | x <;> rw [hlast] at h
  · exact Option.noConfusion h
  · simp only [Option.map_some'] at h
    cases h
    exact ⟨x, mem_of_getLast?_eq hlast, rfl⟩

theorem worstOf_ne_nil {res : List (ℚ × DocId)} {w : ℚ} (h : worstOf res = some w) :
    res ≠ [] := by
  intro hh
  subst hh
  simp [worstOf] at h

theorem min_facts {k a b : Nat} (h : a = min k b) :
    (a < k → a = b) ∧ (k ≤ a → (a = k ∧ k ≤ b)) := by
  rcases Nat.le_total b k with hh | hh
  · have := Nat.min_eq_right hh
    omega
  · have := Nat.min_eq_left hh
    omega

theorem Sel_push {k : Nat} {P res : List (ℚ × DocId)} (h : Sel k P res)
    (p : ℚ × DocId) : Sel k (p :: P) (pushK k res p) := by
  obtain ⟨hs, hlen, rest, hperm, hbound⟩ := h
  have hmf := min_facts hlen
  unfold pushK
  by_cases hadm : admits k res p.1 = true
  · rw [if_pos hadm]
    by_cases hfull : res.length < k
    · have hplen : P.length = res.length := (hmf.1 hfull).symm
      have hrest : rest = [] := by
        have := hperm.length_eq
        rw [List.length_append] at this
        exact List.eq_nil_of_length_eq_zero (by omega)
      subst hrest
      have htake : (insSorted p res).take k = insSorted p res := by
        apply List.take_of_length_le
        rw [insSorted_length]
        omega
      rw [htake]
      refine ⟨insSorted_sorted hs, ?_, [], ?_, by simp⟩
      · rw [insSorted_length]
        simp only [List.length_cons]
        have : min k (P.length + 1) = P.length + 1 := Nat.min_eq_right (by omega)
        omega
      · rw [List.append_nil]
        refine (insSorted_perm p res).trans ?_
        rw [List.append_nil] at hperm
        exact hperm.cons p
    · -- the set is full: insert and evict the worst
      have hkres : res.length = k ∧ k ≤ P.length := hmf.2 (by omega)
      have hwadm : ∃ w, worstOf res = some w ∧ p.1 < w := by
        unfold admits at hadm
        rcases hw : worstOf res with _ | w <;> rw [hw] at hadm
        · simp only [decide_eq_true_eq, Bool.or_false] at hadm
          omega
        · simp only [decide_eq_true_eq, Bool.or_eq_true] at hadm
          rcases hadm with hadm | hadm
          · omega
          · exact ⟨w, rfl, hadm⟩
      obtain ⟨w, hw, hpw⟩ := hwadm
      have hwrest : ∀ b ∈ rest, w ≤ b.1 := by
        obtain ⟨z, hz, hzw⟩ := worstOf_mem hw
        intro b hb
        rw [← hzw]
        exact hbound z hz b hb
      have hLsort := insSorted_sorted (p := p) hs
      have hLlen : (insSorted p res).length = k + 1 := by
        rw [insSorted_length, hkres.1]
      have hdrop : ∃ x, (insSorted p res).drop k = [x] := by
        have hdl : ((insSorted p res).drop k).length = 1 := by
          rw [List.length_drop, hLlen]
          omega
        rcases hd : (insSorted p res).drop k with _ | ⟨x, xs⟩ <;> rw [hd] at hdl
        · simp at hdl
        · simp only [List.length_cons] at hdl
          have : xs = [] := List.eq_nil_of_length_eq_zero (by omega)
          exact ⟨x, by rw [this]⟩
      obtain ⟨x, hx⟩ := hdrop
      have hLdecomp : (insSorted p res).take k ++ [x] = insSorted p res := by
        rw [← hx]
        exact List.take_append_drop k _
      have hcross : ∀ a ∈ (insSorted p res).take k, a.1 ≤ x.1 := by
        intro a ha
        have hsplit2 : ((insSorted p res).take k ++ [x]).Sorted
            (fun a b => a.1 ≤ b.1) := by
          rw [hLdecomp]
          exact hLsort
        have := List.pairwise_append.1 hsplit2
        exact this.2.2 a ha x (List.mem_singleton_self x)
      have hmemL : ∀ a ∈ (insSorted p res).take k, a = p ∨ a ∈ res := by
        intro a ha
        have : a ∈ insSorted p res := by
          rw [← hLdecomp]
          exact List.mem_append_left _ ha
        exact List.mem_cons.1 ((insSorted_perm p res).mem_iff.1 this)
      refine ⟨hLsort.sublist (List.take_sublist k _), ?_, x :: rest, ?_, ?_⟩
      · rw [List.length_take, hLlen]
        simp only [List.length_cons]
        have h1 : min (k + 1) k = k := Nat.min_eq_right (by omega)
        have h2 : min k (P.length + 1) = k := Nat.min_eq_left (by omega)
        omega
      · have h1 : (insSorted p res).take k ++ x :: rest
            = ((insSorted p res).take k ++ [x]) ++ rest := by
          rw [List.append_cons]
        rw [h1, hLdecomp]
        refine ((insSorted_perm p res).append_right rest).trans ?_
        exact hperm.cons p
      · intro a ha b hb
        rcases List.mem_cons.1 hb with rfl | hb
        · exact hcross a ha
        · rcases hmemL a ha with rfl | haRes
          · have := hwrest b hb
            linarith
          · have h1 := sorted_le_worst hs haRes hw
            have h2 := hwrest b hb
            linarith
  · rw [if_neg hadm]
    have hfull : k ≤ res.length := by
      by_contra hh
      push_neg at hh
      apply hadm
      unfold admits
      rw [decide_eq_true hh]
      simp
    have hkres : res.length = k ∧ k ≤ P.length := hmf.2 hfull
    refine ⟨hs, ?_, p :: rest, ?_, ?_⟩
    · simp only [List.length_cons]
      have : min k (P.length + 1) = k := Nat.min_eq_left (by omega)
      omega
    · refine (List.perm_middle).trans ?_
      exact hperm.cons p
    · intro a ha b hb
      rcases List.mem_cons.1 hb with rfl | hb
      · by_cases hk0 : k = 0
        · subst hk0
          have : res = [] := List.eq_nil_of_length_eq_zero (by omega)
          subst this
          simp at ha
        · have hres_ne : res ≠ [] := by
            intro hh
            rw [hh] at hkres
            simp only [List.length_nil] at hkres
            omega
          obtain ⟨w, hw⟩ := worstOf_some_of_ne_nil hres_ne
          have hnlt : ¬ b.1 < w := by
            intro hh
            apply hadm
            unfold admits
            rw [hw]
            simp only [Bool.or_eq_true, decide_eq_true_eq]
            right
            exact hh
          have := sorted_le_worst hs ha hw
          exact le_trans this (le_of_not_lt hnlt)
      · exact hbound a ha b hb

theorem Sel_skip {k : Nat} {lb : ℚ} {P res Q : List (ℚ × DocId)} (h : Sel k P res)
    (hskip : skipSubtree k res lb = true) (hQ : ∀ x ∈ Q, lb ≤ x.1) :
    Sel k (P ++ Q) res := by
  obtain ⟨hs, hlen, rest, hperm, hbound⟩ := h
  have hmf := min_facts hlen
  obtain ⟨hfull, w, hw, hwlb⟩ : ¬ res.length < k ∧
      ∃ w, worstOf res = some w ∧ w < lb := by
    unfold skipSubtree at hskip
    rcases hw : worstOf res with _ | w <;> rw [hw] at hskip
    · simp at hskip
    · simp only [Bool.and_eq_true, Bool.not_eq_eq_eq_not, Bool.not_true,
        decide_eq_false_iff_not, decide_eq_true_eq] at hskip
      exact ⟨hskip.1, w, rfl, hskip.2⟩
  have hkres : res.length = k ∧ k ≤ P.length := hmf.2 (by omega)
  refine ⟨hs, ?_, rest ++ Q, ?_, ?_⟩
  · rw [List.length_append]
    have : min k (P.length + Q.length) = k := Nat.min_eq_left (by omega)
    omega
  · rw [← List.append_assoc]
    exact hperm.append_right Q
  · intro a ha b hb
    rcases List.mem_append.1 hb with hb | hb
    · exact hbound a ha b hb
    · have h1 := sorted_le_worst hs ha hw
      have h2 := hQ b hb
      linarith

theorem Sel_pushList {k : Nat} {P res : List (ℚ × DocId)} (h : Sel k P res) :
    ∀ L, Sel k (P ++ L) (L.foldl (pushK k) res) := by
  intro L
  induction L generalizing P res with
  | nil =>
    rw [List.append_nil]
    exact h
  | cons p L ih =>
    rw [List.foldl_cons]
    refine Sel_perm ?_ (ih (Sel_push h p))
    refine (List.perm_middle).symm.trans ?_
    rfl

theorem foldl_flatMap {α β γ : Type} (f : γ → β → γ) (g : α → List β)
    (l : List α) (i : γ) :
    (l.flatMap g).foldl f i = l.foldl (fun acc a => (g a).foldl f acc) i := by
  induction l generalizing i with
  | nil => rfl
  | cons a l ih =>
    rw [List.flatMap_cons, List.foldl_append, ih]
    rfl

theorem searchGo_leaf_eq (d : Vec → Vec → ℚ) (q : Vec) (k : Nat)
    (es : List LeafEntry) (res : List (ℚ × DocId)) :
    searchGo d q k (.leaf es) res = (Tree.pairs d q (.leaf es)).foldl (pushK k) res := by
  rw [searchGo]
  unfold Tree.pairs
  rw [Tree.entries, foldl_flatMap]
  simp only [List.foldl_map]

theorem pairs_routing_nil (d : Vec → Vec → ℚ) (q : Vec) :
    Tree.pairs d q (.routing []) = [] := by
  unfold Tree.pairs
  rw [Tree.entries]
  rfl

theorem pairs_routing_cons (d : Vec → Vec → ℚ) (q : Vec) (e : REntry) (es : List REntry) :
    Tree.pairs d q (.routing (e :: es)) =
      Tree.pairs d q e.subtree ++ Tree.pairs d q (.routing es) := by
  unfold Tree.pairs
  rw [Tree.entries, List.flatMap_append]

theorem pairs_mem {d : Vec → Vec → ℚ} {q : Vec} {t : Tree} {x : ℚ × DocId}
    (hx : x ∈ Tree.pairs d q t) : ∃ xv ∈ t.vecs, x.1 = d q xv := by
  unfold Tree.pairs at hx
  obtain ⟨ent, hent, hx2⟩ := List.mem_flatMap.1 hx
  obtain ⟨doc, hdoc, rfl⟩ := List.mem_map.1 hx2
  refine ⟨ent.vector, ?_, rfl⟩
  rw [Tree.vecs_eq_entries_map]
  exact List.mem_map_of_mem _ hent

theorem searchGo_sel {d : Vec → Vec → ℚ} (hd : IsMetric d) {n : Nat} {q : Vec}
    (hq : q.length = n) (k : Nat) :
    ∀ (t : Tree) (res : List (ℚ × DocId)), t.dimsOk n = true → Covers d t →
      ∀ P, Sel k P res → Sel k (P ++ Tree.pairs d q t) (searchGo d q k t res) := by
  refine searchGo.induct d q k (motive := fun t res => t.dimsOk n = true → Covers d t →
      ∀ P, Sel k P res → Sel k (P ++ Tree.pairs d q t) (searchGo d q k t res)) ?_ ?_ ?_
  · intro es res hdims hcov P hsel
    rw [searchGo_leaf_eq]
    exact Sel_pushList hsel _
  · intro res hdims hcov P hsel
    rw [searchGo, pairs_routing_nil, List.append_nil]
    exact hsel
  · intro e es res ih1 ih2 hdims hcov P hsel
    have hde := dimsOk_routing.1 hdims
    have hce := Covers_routing.1 hcov
    have hd2 : (Tree.routing es).dimsOk n = true :=
      dimsOk_routing.2 (fun f hf => hde f (List.mem_cons_of_mem e hf))
    have hc2 : Covers d (.routing es) :=
      Covers_routing.2 (fun f hf => hce f (List.mem_cons_of_mem e hf))
    have hdE := hde e (List.mem_cons_self e es)
    have hcE := hce e (List.mem_cons_self e es)
    have hQbound : ∀ x ∈ Tree.pairs d q e.subtree, d e.pivot q - e.radius ≤ x.1 := by
      intro x hx
      obtain ⟨xv, hxv, hx1⟩ := pairs_mem hx
      have hxl : xv.length = n := dimsOk_vecs hdE.2 xv hxv
      have htri : d e.pivot q ≤ d e.pivot xv + d xv q := by
        refine hd.triangle e.pivot xv q ?_ ?_
        · rw [hdE.1, hxl]
        · rw [hxl, hq]
      have hcv : d e.pivot xv ≤ e.radius := hcE.1 xv hxv
      have hsymm : d xv q = d q xv := hd.symm xv q
      rw [hx1]
      linarith
    rw [searchGo, pairs_routing_cons, ← List.append_assoc]
    by_cases hskip : skipSubtree k res (d e.pivot q - e.radius) = true
    · rw [dif_pos hskip] at ih2
      rw [if_pos hskip]
      exact ih2 hd2 hc2 (P ++ Tree.pairs d q e.subtree) (Sel_skip hsel hskip hQbound)
    · have hskip2 : skipSubtree k res (d e.pivot q - e.radius) = false :=
        Bool.not_eq_true _ ▸ (by simpa using hskip)
      rw [dif_neg hskip] at ih2
      rw [if_neg hskip]
      exact ih2 hd2 hc2 (P ++ Tree.pairs d q e.subtree)
        (ih1 hdE.2 hcE.2 P hsel)

theorem qle_trans : ∀ a b c : ℚ, decide (a ≤ b) = true → decide (b ≤ c) = true →
    decide (a ≤ c) = true := by
  intro a b c h1 h2
  simp only [decide_eq_true_eq] at h1 h2 ⊢
  linarith

theorem qle_total : ∀ a b : ℚ, (decide (a ≤ b) || decide (b ≤ a)) = true := by
  intro a b
  rcases le_total a b with h | h <;> simp [h]

theorem qle_fst_trans : ∀ a b c : ℚ × DocId, decide (a.1 ≤ b.1) = true →
    decide (b.1 ≤ c.1) = true → decide (a.1 ≤ c.1) = true := by
  intro a b c h1 h2
  simp only [decide_eq_true_eq] at h1 h2 ⊢
  linarith

theorem qle_fst_total : ∀ a b : ℚ × DocId,
    (decide (a.1 ≤ b.1) || decide (b.1 ≤ a.1)) = true := by
  intro a b
  rcases le_total a.1 b.1 with h | h <;> simp [h]

theorem mergeSort_sorted_q (l : List ℚ) :
    (l.mergeSort (fun a b => decide (a ≤ b))).Sorted (fun a b : ℚ => a ≤ b) := by
  have := List.sorted_mergeSort qle_trans qle_total l
  exact this.imp (fun h => of_decide_eq_true h)

theorem Sel_dists {k : Nat} {P res : List (ℚ × DocId)} (h : Sel k P res) :
    res.map Prod.fst = ((P.map Prod.fst).mergeSort (fun a b => decide (a ≤ b))).take k := by
  obtain ⟨hs, hlen, rest, hperm, hbound⟩ := h
  have hSsort : (res.map Prod.fst).Sorted (fun a b : ℚ => a ≤ b) :=
    List.pairwise_map.2 hs
  have hTsort : ((rest.map Prod.fst).mergeSort (fun a b => decide (a ≤ b))).Sorted
      (fun a b : ℚ => a ≤ b) := mergeSort_sorted_q _
  have hTperm := List.mergeSort_perm (rest.map Prod.fst) (fun a b => decide (a ≤ b))
  have hLperm : (res.map Prod.fst ++
      (rest.map Prod.fst).mergeSort (fun a b => decide (a ≤ b))).Perm
      (P.map Prod.fst) := by
    refine ((List.Perm.append_left _ hTperm).trans ?_)
    rw [← List.map_append]
    exact hperm.map Prod.fst
  have hcross : ∀ a ∈ res.map Prod.fst,
      ∀ b ∈ (rest.map Prod.fst).mergeSort (fun a b => decide (a ≤ b)), a ≤ b := by
    intro a ha b hb
    obtain ⟨a1, ha1, rfl⟩ := List.mem_map.1 ha
    have hb2 := hTperm.mem_iff.1 hb
    obtain ⟨b1, hb1, rfl⟩ := List.mem_map.1 hb2
    exact hbound a1 ha1 b1 hb1
  have hLsort : (res.map Prod.fst ++
      (rest.map Prod.fst).mergeSort (fun a b => decide (a ≤ b))).Sorted
      (fun a b : ℚ => a ≤ b) :=
    List.pairwise_append.2 ⟨hSsort, hTsort, hcross⟩
  have hMsort : ((P.map Prod.fst).mergeSort (fun a b => decide (a ≤ b))).Sorted
      (fun a b : ℚ => a ≤ b) := mergeSort_sorted_q _
  have heq : res.map Prod.fst ++
      (rest.map Prod.fst).mergeSort (fun a b => decide (a ≤ b)) =
      (P.map Prod.fst).mergeSort (fun a b => decide (a ≤ b)) := by
    refine List.eq_of_perm_of_sorted ?_ hLsort hMsort
    exact hLperm.trans (List.mergeSort_perm _ _).symm
  rw [← heq]
  have hmf := min_facts hlen
  by_cases hfull : res.length < k
  · have hPlen : res.length = P.length := hmf.1 hfull
    have hrest : rest = [] := by
      have := hperm.length_eq
      rw [List.length_append] at this
      exact List.eq_nil_of_length_eq_zero (by omega)
    subst hrest
    simp only [List.map_nil, List.mergeSort_nil, List.append_nil]
    exact (List.take_of_length_le (by rw [List.length_map]; omega)).symm
  · have hkres : res.length = k := (hmf.2 (by omega)).1
    rw [List.take_append_of_le_length (by rw [List.length_map]; omega)]
    rw [← List.length_map res Prod.fst] at hkres
    rw [← hkres, List.take_length]

theorem bruteForce_map_fst (l : List (ℚ × DocId)) :
    (l.mergeSort (fun a b => decide (a.1 ≤ b.1))).map Prod.fst
      = (l.map Prod.fst).mergeSort (fun a b => decide (a ≤ b)) := by
  refine List.eq_of_perm_of_sorted ?_ ?_ (mergeSort_sorted_q _)
  · exact ((List.mergeSort_perm l _).map Prod.fst).trans
      (List.mergeSort_perm _ _).symm
  · exact List.pairwise_map.2
      ((List.sorted_mergeSort qle_fst_trans qle_fst_total l).imp
        (fun h => of_decide_eq_true h))

theorem manhattan_symm (a b : Vec) : manhattan a b = manhattan b a := by
  unfold manhattan
  induction a generalizing b with
  | nil => cases b <;> rfl
  | cons x xs ih =>
    cases b with
    | nil => rfl
    | cons y ys =>
      simp only [List.zipWith_cons_cons, List.sum_cons]
      rw [ih ys, abs_sub_comm]

theorem manhattan_self (a : Vec) : manhattan a a = 0 := by
  unfold manhattan
  induction a with
  | nil => rfl
  | cons x xs ih =>
    simp only [List.zipWith_cons_cons, List.sum_cons]
    rw [sub_self, abs_zero]
    unfold manhattan at ih
    rw [ih, add_zero]

theorem manhattan_nonneg (a b : Vec) : 0 ≤ manhattan a b := by
  unfold manhattan
  induction a generalizing b with
  | nil => simp
  | cons x xs ih =>
    cases b with
    | nil => simp
    | cons y ys =>
      simp only [List.zipWith_cons_cons, List.sum_cons]
      have h1 := abs_nonneg (x - y)
      have h2 := ih ys
      linarith

theorem manhattan_triangle (a b c : Vec) (hab : a.length = b.length)
    (hbc : b.length = c.length) : manhattan a c ≤ manhattan a b + manhattan b c := by
  unfold manhattan
  induction a generalizing b c with
  | nil =>
    cases b with
    | nil =>
      cases c with
      | nil => simp
      | cons z zs => simp at hbc
    | cons y ys => simp at hab
  | cons x xs ih =>
    cases b with
    | nil => simp at hab
    | cons y ys =>
      cases c with
      | nil => simp at hbc
      | cons z zs =>
        simp only [List.zipWith_cons_cons, List.sum_cons]
        have h1 : |x - z| ≤ |x - y| + |y - z| := abs_sub_le x y z
        have h2 := ih ys zs (by simpa using hab) (by simpa using hbc)
        linarith

theorem manhattan_metric : IsMetric manhattan :=
  ⟨manhattan_symm, manhattan_self, fun a b _ => manhattan_nonneg a b,
    fun a b c h1 h2 => manhattan_triangle a b c h1 h2⟩

/-- The stored (true distance to query, doc id) pairs of the whole index:
the data a brute-force linear scan works on. -/
def MTree.storedPairs (d : Vec → Vec → ℚ) (t : MTree) (q : Vec) : List (ℚ × DocId) :=
  match t.root with
  | none => []
  | some root => Tree.pairs d q root

/-- The query has the dimension of the stored vectors (vacuous for an empty
tree); a query violating this gets `DimensionMismatch`. -/
def MTree.queryOk (t : MTree) (q : Vec) : Bool :=
  match t.root with
  | none => true
  | some root => root.dimsOk q.length

/-- C1: for every index built by a sequence of inserts (capacity at least 2)
and every well-dimensioned query, `knn_search(q, k)` succeeds with a sequence
of (doc id, distance) pairs of length `min k (stored count)`, ascending by
distance, whose members bound everything left out (an exact selection of the
`k` closest stored pairs), and whose doc ids are exactly those of the first
`k` entries of the brute-force linear scan — for every `k`. -/
theorem knnSearch_exact {d : Vec → Vec → ℚ} (hd : IsMetric d) {m : Nat} (hm : 2 ≤ m)
    {ps : List (Vec × DocId)} {t : MTree}
    (hbuild : (MTree.new (MState.new m)).insertAll d ps = .ok t)
    {q : Vec} (hq : t.queryOk q = true) (k : Nat) :
    ∃ R, t.knnSearch d q k = .ok R ∧
      R.length = min k (t.storedPairs d q).length ∧
      R.Sorted (fun a b => a.2 ≤ b.2) ∧
      (∃ rest, (R.map (fun p => (p.2, p.1)) ++ rest).Perm (t.storedPairs d q) ∧
        ∀ a ∈ R, ∀ b ∈ rest, a.2 ≤ b.1) ∧
      R.map Prod.snd = (bruteForce d t q k).map Prod.fst := by
  obtain ⟨hInvM, hstate⟩ := MTree_insertAll_inv hd (by exact hm) (by trivial) hbuild
  unfold MTree.knnSearch MTree.storedPairs bruteForce
  rcases hroot : t.root with _ | root
  · exact ⟨[], rfl, by simp, List.sorted_nil, ⟨[], by simp, by simp⟩, by simp⟩
  · have hcov : Covers d root := by
      unfold InvM at hInvM
      rw [hroot] at hInvM
      obtain ⟨n1, hI⟩ := hInvM
      exact hI.2.1
    have hdims : root.dimsOk q.length = true := by
      unfold MTree.queryOk at hq
      rw [hroot] at hq
      exact hq
    dsimp only
    by_cases hk0 : k = 0
    · subst hk0
      rw [if_pos rfl]
      refine ⟨[], rfl, by simp, List.sorted_nil,
        ⟨Tree.pairs d q root, by simp, by simp⟩, by simp⟩
    · rw [if_neg hk0, if_pos hdims]
      have hsel : Sel k (Tree.pairs d q root) (searchGo d q k root []) := by
        have := searchGo_sel hd rfl k root [] hdims hcov [] Sel_nil
        simpa using this
      obtain ⟨hs, hlen, rest, hperm, hbound⟩ := hsel
      refine ⟨(searchGo d q k root []).map (fun p => (p.2, p.1)), rfl, ?_, ?_, ?_, ?_⟩
      · rw [List.length_map]
        exact hlen
      · exact List.pairwise_map.2 hs
      · refine ⟨rest, ?_, ?_⟩
        · rw [List.map_map]
          have hcomp : ((fun p : DocId × ℚ => (p.2, p.1)) ∘
              (fun p : ℚ × DocId => (p.2, p.1))) = id := by
            funext p
            rfl
          rw [hcomp, List.map_id]
          exact hperm
        · intro a ha b hb
          obtain ⟨a1, ha1, rfl⟩ := List.mem_map.1 ha
          exact hbound a1 ha1 b hb
      · have h1 := Sel_dists ⟨hs, hlen, rest, hperm, hbound⟩
        rw [List.map_map]
        have h2 : (Prod.snd ∘ (fun p : ℚ × DocId => (p.2, p.1))) = Prod.fst := by
          funext p
          rfl
        rw [h2, h1, List.map_take, bruteForce_map_fst]

/-- Node identifiers: stable, monotonically allocated integers addressing
nodes in the store (spec section 3). -/
abbrev NodeId := Nat

/-- The persisted form of a node: a routing entry stores the id of its
subtree instead of the subtree itself (spec section 3, "Routing Node" and
"Node Store"). -/
inductive StoredNode where
  | leaf (entries : List LeafEntry) : StoredNode
  | routing (entries : List (Vec × ℚ × ℚ × NodeId)) : StoredNode
deriving Repr, DecidableEq

/-- The backing transactional key-value substrate: node bytes by key, last
write wins (spec section 6). -/
abbrev KV := List (NodeId × StoredNode)

def kvGet (kv : KV) (id : NodeId) : Option StoredNode :=
  match kv.find? (fun p => p.1 == id) with
  | some p => some p.2
  | none => none

/-- Modelled from the spec (section 4.2): the per-transaction node store: a
cache of nodes by id with a dirty flag, and a monotone fresh id allocator. -/
structure TreeNodeStore where
  cache : List (NodeId × StoredNode × Bool)
  nextId : NodeId
deriving Repr

def TreeNodeStore.new : TreeNodeStore :=
  ⟨[], 0⟩

/-- Allocates a fresh node id, monotonically increasing (spec section 4.2). -/
def TreeNodeStore.newNodeId (s : TreeNodeStore) : NodeId × TreeNodeStore :=
  (s.nextId, ⟨s.cache, s.nextId + 1⟩)

/-- Marks a node dirty in the cache; does not touch the backing transaction
(spec section 4.2). -/
def TreeNodeStore.storeNode (s : TreeNodeStore) (id : NodeId) (nd : StoredNode) :
    TreeNodeStore :=
  ⟨(id, nd, true) :: s.cache, s.nextId⟩

/-- Returns the cached node if present, otherwise fetches from the backing
provider and caches it clean; fails with `NodeNotFound` for an unknown id
(spec section 4.2). -/
def TreeNodeStore.load (backing : KV) (s : TreeNodeStore) (id : NodeId) :
    Except Err (StoredNode × TreeNodeStore) :=
  match s.cache.find? (fun p => p.1 == id) with
  | some p => .ok (p.2.1, s)
  | none =>
    match kvGet backing id with
    | some nd => .ok (nd, ⟨(id, nd, false) :: s.cache, s.nextId⟩)
    | none => .error (.NodeNotFound id)

/-- Flushes every dirty cache entry into the backing substrate (spec
section 4.2, `finish`). -/
def TreeNodeStore.finish (s : TreeNodeStore) (backing : KV) : KV :=
  (s.cache.filter (fun p => p.2.2)).map (fun p => (p.1, p.2.1)) ++ backing

mutual
/-- Modelled from the spec (sections 4.2 and 4.3 step 4): persist a tree
through the node store, allocating a fresh id per node and writing every
node dirty; returns the root's node id. -/
def encodeTree : Tree → TreeNodeStore → NodeId × TreeNodeStore
  | .leaf es, s =>
    match s.newNodeId with
    | (id, s1) => (id, s1.storeNode id (.leaf es))
  | .routing es, s =>
    match encodeEntries es s with
    | (ents, s1) =>
      match s1.newNodeId with
      | (id, s2) => (id, s2.storeNode id (.routing ents))
termination_by t s => sizeOf t
decreasing_by
  simp only [Tree.routing.sizeOf_spec]
  omega
def encodeEntries : List REntry → TreeNodeStore →
    List (Vec × ℚ × ℚ × NodeId) × TreeNodeStore
  | [], s => ([], s)
  | e :: es, s =>
    match encodeTree e.subtree s with
    | (cid, s1) =>
      match encodeEntries es s1 with
      | (rest, s2) => ((e.pivot, e.radius, e.parentDist, cid) :: rest, s2)
termination_by es s => sizeOf es
decreasing_by
  · have := REntry.sizeOf_subtree_lt e
    simp only [List.cons.sizeOf_spec]
    omega
  · simp only [List.cons.sizeOf_spec]
    omega
end

mutual
/-- Modelled from the spec (sections 4.2 and 3): reload a tree from the
backing substrate through a node store, following subtree node ids; `fuel`
bounds the recursion depth. -/
def decodeTree (backing : KV) : Nat → NodeId → TreeNodeStore →
    Except Err (Tree × TreeNodeStore)
  | 0, id, _ => .error (.NodeNotFound id)
  | fuel + 1, id, s =>
    match TreeNodeStore.load backing s id with
    | .error e => .error e
    | .ok (.leaf es, s1) => .ok (.leaf es, s1)
    | .ok (.routing ents, s1) =>
      match decodeEntries backing fuel ents s1 with
      | .error e => .error e
      | .ok (res, s2) => .ok (.routing res, s2)
termination_by fuel id s => (fuel, 0)
decreasing_by
  exact Prod.Lex.left _ _ (by omega)
def decodeEntries (backing : KV) : Nat → List (Vec × ℚ × ℚ × NodeId) →
    TreeNodeStore → Except Err (List REntry × TreeNodeStore)
  | _, [], s => .ok ([], s)
  | fuel, (p, r, pd, cid) :: rest, s =>
    match decodeTree backing fuel cid s with
    | .error e => .error e
    | .ok (child, s1) =>
      match decodeEntries backing fuel rest s1 with
      | .error e => .error e
      | .ok (res, s2) => .ok (.mk p r pd child :: res, s2)
termination_by fuel ents s => (fuel, ents.length + 1)
decreasing_by
  · exact Prod.Lex.right _ (by simp only [List.length_cons]; omega)
  · exact Prod.Lex.right _ (by simp only [List.length_cons]; omega)
end

/-- The persisted state of one index: the committed key-value space and the
root node id (spec sections 3 and 6). -/
structure DB where
  backing : KV
  root : Option NodeId
deriving Repr

/-- Reload the index from the backing substrate through a fresh node store
(spec section 8, round-trip). -/
def loadMTree (m : Nat) (db : DB) (fuel : Nat) : Except Err MTree :=
  match db.root with
  | none => .ok (MTree.new (MState.new m))
  | some rid =>
    match decodeTree db.backing fuel rid TreeNodeStore.new with
    | .error e => .error e
    | .ok (t, _) => .ok ⟨MState.new m, some t⟩

/-- Persist the index through a fresh write node store and commit: every
node is written through the store and flushed by `finish` into the backing
substrate (spec sections 4.2 and 5). -/
def persistMTree (t : MTree) (db : DB) : DB :=
  match t.root with
  | none => db
  | some root =>
    match encodeTree root TreeNodeStore.new with
    | (rid, s) => ⟨s.finish db.backing, some rid⟩

/-- One insert transaction against the persisted state: reload, insert,
and on success persist and commit; on error nothing is flushed, so the
transaction rolls back and the persisted state is unchanged (spec sections
4.3, 5 and 7). Returns the outcome and the resulting persisted state. -/
def insertIntoDB (d : Vec → Vec → ℚ) (m : Nat) (db : DB) (v : Vec) (doc : DocId)
    (fuel : Nat) : Except Err DB × DB :=
  match loadMTree m db fuel with
  | .error e => (.error e, db)
  | .ok t =>
    match t.insert d v doc with
    | .error e => (.error e, db)
    | .ok t1 => (.ok (persistMTree t1 db), persistMTree t1 db)

/-- Internal store invariant: every cached id was allocated (smaller than
the allocator), hence all cached ids are distinct. -/
def StInv (s : TreeNodeStore) : Prop :=
  (∀ p ∈ s.cache, p.1 < s.nextId) ∧
    s.cache.Pairwise (fun p q => p.1 ≠ q.1)

/-- Read consistency: everything a read store has cached agrees with the
backing substrate. -/
def RCons (B : KV) (s : TreeNodeStore) : Prop :=
  ∀ p ∈ s.cache, kvGet B p.1 = some p.2.1

theorem RCons_new (B : KV) : RCons B TreeNodeStore.new := by
  intro p hp
  simp [TreeNodeStore.new] at hp

theorem StInv_new : StInv TreeNodeStore.new := by
  constructor
  · intro p hp
    simp [TreeNodeStore.new] at hp
  · simp [TreeNodeStore.new]

theorem REntry.eta (e : REntry) :
    REntry.mk e.pivot e.radius e.parentDist e.subtree = e := by
  cases e
  rfl

theorem load_of_kvGet {B : KV} {s : TreeNodeStore} (hrc : RCons B s) {id : NodeId}
    {nd : StoredNode} (hget : kvGet B id = some nd) :
    ∃ s', TreeNodeStore.load B s id = .ok (nd, s') ∧ RCons B s' := by
  unfold TreeNodeStore.load
  rcases hfind : s.cache.find? (fun p => p.1 == id) with _ | p <;> rw [hfind] <;>
    dsimp only
  · rw [hget]
    refine ⟨_, rfl, ?_⟩
    intro q hq
    rcases List.mem_cons.1 hq with rfl | hq
    · exact hget
    · exact hrc q hq
  · have hm := List.mem_of_find?_eq_some hfind
    have hpid : p.1 = id := by
      have := List.find?_some hfind
      simpa using this
    have hval := hrc p hm
    rw [hpid, hget] at hval
    have hnd : nd = p.2.1 := Option.some.inj hval
    subst hnd
    exact ⟨s, rfl, hrc⟩

theorem pairwise_key_unique {l : List (NodeId × StoredNode × Bool)}
    (h : l.Pairwise (fun p q => p.1 ≠ q.1)) {p q : NodeId × StoredNode × Bool}
    (hp : p ∈ l) (hq : q ∈ l) (heq : p.1 = q.1) : p = q := by
  induction l with
  | nil => simp at hp
  | cons a l ih =>
    obtain ⟨ha, hl⟩ := List.pairwise_cons.1 h
    rcases List.mem_cons.1 hp with hpa | hp1
    · rcases List.mem_cons.1 hq with hqa | hq1
      · rw [hpa, hqa]
      · exfalso
        apply ha q hq1
        rw [← hpa]
        exact heq
    · rcases List.mem_cons.1 hq with hqa | hq1
      · exfalso
        apply ha p hp1
        rw [← hqa]
        exact heq.symm
      · exact ih hl hp1 hq1

theorem kvGet_finish {s : TreeNodeStore}
    (hdis : s.cache.Pairwise (fun p q => p.1 ≠ q.1))
    {p : NodeId × StoredNode × Bool} (hp : p ∈ s.cache) (hdirty : p.2.2 = true) :
    kvGet (s.finish []) p.1 = some p.2.1 := by
  have hfin : s.finish []
      = (s.cache.filter (fun p => p.2.2)).map (fun p => (p.1, p.2.1)) := by
    unfold TreeNodeStore.finish
    exact List.append_nil _
  rw [hfin]
  unfold kvGet
  have hpL : (p.1, p.2.1) ∈ (s.cache.filter (fun p => p.2.2)).map
      (fun p => (p.1, p.2.1)) :=
    List.mem_map_of_mem _ (List.mem_filter.2 ⟨hp, hdirty⟩)
  rcases hfind : ((s.cache.filter (fun p => p.2.2)).map
      (fun p => (p.1, p.2.1))).find? (fun q => q.1 == p.1) with _ | q <;>
    rw [hfind] <;> dsimp only
  · have := List.find?_eq_none.1 hfind _ hpL
    simp at this
  · have hqm := List.mem_of_find?_eq_some hfind
    have hqid : q.1 = p.1 := by
      have := List.find?_some hfind
      simpa using this
    obtain ⟨p2, hp2, hq2⟩ := List.mem_map.1 hqm
    have hp2c : p2 ∈ s.cache := (List.mem_filter.1 hp2).1
    have hp2id : p2.1 = p.1 := by
      rw [← hq2] at hqid
      exact hqid
    have hpe : p2 = p := pairwise_key_unique hdis hp2c hp hp2id
    subst hpe
    rw [← hq2]

theorem encode_decode : ∀ (t : Tree) (s : TreeNodeStore) (rid : NodeId)
    (s' : TreeNodeStore), StInv s → encodeTree t s = (rid, s') →
    StInv s' ∧ s.nextId ≤ rid ∧ rid < s'.nextId ∧ s.nextId ≤ s'.nextId ∧
    ∃ new, s'.cache = new ++ s.cache ∧
      (∀ p ∈ new, s.nextId ≤ p.1 ∧ p.2.2 = true) ∧
      ∀ B : KV, (∀ p ∈ new, kvGet B p.1 = some p.2.1) →
        ∀ fuel, sizeOf t ≤ fuel → ∀ rs, RCons B rs →
          ∃ rs', decodeTree B fuel rid rs = .ok (t, rs') ∧ RCons B rs' := by
  intro t0 s0
  refine encodeTree.induct
    (fun t s => ∀ rid s', StInv s → encodeTree t s = (rid, s') →
      StInv s' ∧ s.nextId ≤ rid ∧ rid < s'.nextId ∧ s.nextId ≤ s'.nextId ∧
      ∃ new, s'.cache = new ++ s.cache ∧
        (∀ p ∈ new, s.nextId ≤ p.1 ∧ p.2.2 = true) ∧
        ∀ B : KV, (∀ p ∈ new, kvGet B p.1 = some p.2.1) →
          ∀ fuel, sizeOf t ≤ fuel → ∀ rs, RCons B rs →
            ∃ rs', decodeTree B fuel rid rs = .ok (t, rs') ∧ RCons B rs')
    (fun es s => ∀ ents s', StInv s → encodeEntries es s = (ents, s') →
      StInv s' ∧ s.nextId ≤ s'.nextId ∧
      ∃ new, s'.cache = new ++ s.cache ∧
        (∀ p ∈ new, s.nextId ≤ p.1 ∧ p.2.2 = true) ∧
        ∀ B : KV, (∀ p ∈ new, kvGet B p.1 = some p.2.1) →
          ∀ fuel, sizeOf es ≤ fuel → ∀ rs, RCons B rs →
            ∃ rs', decodeEntries B fuel ents rs = .ok (es, rs') ∧ RCons B rs')
    ?_ ?_ ?_ ?_ t0 s0
  · -- leaf node
    intro es s id0 s1 hnew rid s' hInv henc
    rw [encodeTree] at henc
    dsimp only [TreeNodeStore.newNodeId, TreeNodeStore.storeNode] at henc
    obtain ⟨h1, h2⟩ : s.nextId = rid ∧
        (⟨(s.nextId, StoredNode.leaf es, true) :: s.cache, s.nextId + 1⟩ :
          TreeNodeStore) = s' := by
      cases henc
      exact ⟨rfl, rfl⟩
    subst h1
    subst h2
    dsimp only
    refine ⟨?_, le_refl _, Nat.lt_succ_self _, Nat.le_succ _,
      [(s.nextId, StoredNode.leaf es, true)], rfl, ?_, ?_⟩
    · constructor
      · intro p hp
        dsimp only at hp ⊢
        rcases List.mem_cons.1 hp with rfl | hp
        · exact Nat.lt_succ_self _
        · have := hInv.1 p hp
          exact Nat.lt_succ_of_lt this
      · dsimp only
        refine List.pairwise_cons.2 ⟨?_, hInv.2⟩
        intro q hq
        have := hInv.1 q hq
        exact ne_of_gt this
    · intro p hp
      rcases List.mem_singleton.1 hp with rfl
      exact ⟨le_refl _, rfl⟩
    · intro B hB fuel hfuel rs hrc
      have hpos : 1 ≤ fuel := by
        have : 1 ≤ sizeOf (Tree.leaf es) := by
          simp only [Tree.leaf.sizeOf_spec]
          omega
        omega
      obtain ⟨f, rfl⟩ : ∃ f, fuel = f + 1 := ⟨fuel - 1, by omega⟩
      have hget := hB _ (List.mem_singleton_self _)
      obtain ⟨rs', hload, hrc'⟩ := load_of_kvGet hrc hget
      rw [decodeTree, hload]
      exact ⟨rs', rfl, hrc'⟩
  · -- routing node
    intro es s ents s1 hee id0 s2 hnew ih2 rid s' hInv henc
    rw [encodeTree, hee] at henc
    dsimp only [TreeNodeStore.newNodeId, TreeNodeStore.storeNode] at henc
    obtain ⟨hI1, hle1, new1, hcache1, hnew1, hdec1⟩ := ih2 ents s1 hInv hee
    obtain ⟨h1, h2⟩ : s1.nextId = rid ∧
        (⟨(s1.nextId, StoredNode.routing ents, true) :: s1.cache, s1.nextId + 1⟩ :
          TreeNodeStore) = s' := by
      cases henc
      exact ⟨rfl, rfl⟩
    subst h1
    subst h2
    dsimp only
    refine ⟨?_, hle1, Nat.lt_succ_self _, le_trans hle1 (Nat.le_succ _),
      (s1.nextId, StoredNode.routing ents, true) :: new1,
      by rw [hcache1]; rfl, ?_, ?_⟩
    · constructor
      · intro p hp
        dsimp only at hp ⊢
        rcases List.mem_cons.1 hp with rfl | hp
        · exact Nat.lt_succ_self _
        · have := hI1.1 p hp
          exact Nat.lt_succ_of_lt this
      · dsimp only
        refine List.pairwise_cons.2 ⟨?_, hI1.2⟩
        intro q hq
        have := hI1.1 q hq
        exact ne_of_gt this
    · intro p hp
      rcases List.mem_cons.1 hp with rfl | hp
      · exact ⟨hle1, rfl⟩
      · obtain ⟨hh1, hh2⟩ := hnew1 p hp
        exact ⟨hh1, hh2⟩
    · intro B hB fuel hfuel rs hrc
      have hpos : sizeOf es + 1 ≤ fuel := by
        have : sizeOf (Tree.routing es) = 1 + sizeOf es := by
          simp only [Tree.routing.sizeOf_spec]
        omega
      obtain ⟨f, rfl⟩ : ∃ f, fuel = f + 1 := ⟨fuel - 1, by omega⟩
      have hget := hB _ (List.mem_cons_self _ _)
      obtain ⟨rs1, hload, hrc1⟩ := load_of_kvGet hrc hget
      obtain ⟨rs2, hdec, hrc2⟩ := hdec1 B
        (fun p hp => hB p (List.mem_cons_of_mem _ hp)) f (by omega) rs1 hrc1
      rw [decodeTree, hload]
      dsimp only
      rw [hdec]
      exact ⟨rs2, rfl, hrc2⟩
  · -- no entries
    intro s ents s' hInv henc
    rw [encodeEntries] at henc
    obtain ⟨h1, h2⟩ : ([] : List (Vec × ℚ × ℚ × NodeId)) = ents ∧ s = s' := by
      cases henc
      exact ⟨rfl, rfl⟩
    subst h1
    subst h2
    refine ⟨hInv, le_refl _, [], rfl, by simp, ?_⟩
    intro B hB fuel hfuel rs hrc
    exact ⟨rs, by rw [decodeEntries], hrc⟩
  · -- entry and the rest
    intro e es s cid s1 het ents1 s2 hee ih1 ih2 ents s' hInv henc
    rw [encodeEntries, het] at henc
    dsimp only at henc
    rw [hee] at henc
    dsimp only at henc
    obtain ⟨h1, h2⟩ : (e.pivot, e.radius, e.parentDist, cid) :: ents1 = ents ∧
        s2 = s' := by
      cases henc
      exact ⟨rfl, rfl⟩
    subst h1
    subst h2
    obtain ⟨hI1, hle1a, hle1b, hle1c, new1, hcache1, hnew1, hdec1⟩ :=
      ih1 cid s1 hInv het
    obtain ⟨hI2, hle2, new2, hcache2, hnew2, hdec2⟩ := ih2 ents1 s2 hI1 hee
    refine ⟨hI2, le_trans hle1c hle2, new2 ++ new1, ?_, ?_, ?_⟩
    · rw [hcache2, hcache1, List.append_assoc]
    · intro p hp
      rcases List.mem_append.1 hp with hp | hp
      · obtain ⟨hh1, hh2⟩ := hnew2 p hp
        exact ⟨le_trans hle1c hh1, hh2⟩
      · exact hnew1 p hp
    · intro B hB fuel hfuel rs hrc
      have hsz : sizeOf e.subtree ≤ fuel ∧ sizeOf es ≤ fuel := by
        have h1 := REntry.sizeOf_subtree_lt e
        have h2 : sizeOf (e :: es) = 1 + sizeOf e + sizeOf es := by
          simp only [List.cons.sizeOf_spec]
        omega
      obtain ⟨rs1, hdt, hrc1⟩ := hdec1 B
        (fun p hp => hB p (List.mem_append_right _ hp)) fuel hsz.1 rs hrc
      obtain ⟨rs2, hde, hrc2⟩ := hdec2 B
        (fun p hp => hB p (List.mem_append_left _ hp)) fuel hsz.2 rs1 hrc1
      refine ⟨rs2, ?_, hrc2⟩
      rw [decodeEntries, hdt]
      dsimp only
      rw [hde]
      dsimp only
      rw [REntry.eta]

/-- Whether the one leaf the insertion descent reaches for `v` (following the
subtree-selection heuristic at every routing node, spec section 4.3 step 1)
already holds an entry with vector `v`: exactly the situation in which the
dedup of spec section 4.3 step 2 applies. -/
def targetHasV (d : Vec → Vec → ℚ) (v : Vec) : Tree → Bool
  | .leaf es => es.any (fun e => decide (e.vector = v))
  | .routing es =>
    match h : chooseSub d v es with
    | none => false
    | some (_, e, _, _) => targetHasV d v e.subtree
termination_by t => sizeOf t
decreasing_by
  obtain ⟨h1, h2⟩ := chooseSub_eq h
  subst h1
  exact REntry.sizeOf_lt_of_mem (List.mem_append_right _ (List.mem_cons_self _ _))

/-- All doc ids the tree stores for the exact vector `v`, over every leaf
entry whose vector equals `v`. -/
def Tree.docsFor (v : Vec) (t : Tree) : List DocId :=
  (t.entries.filter (fun e => decide (e.vector = v))).flatMap (fun e => e.docs)

/-- How many leaf entries of the tree hold exactly the vector `v`. -/
def Tree.entryCountFor (v : Vec) (t : Tree) : Nat :=
  (t.entries.filter (fun e => decide (e.vector = v))).length

/-- `entryCountFor` lifted to the index: 0 for an empty tree. -/
def MTree.entryCountFor (v : Vec) (t : MTree) : Nat :=
  match t.root with
  | none => 0
  | some root => root.entryCountFor v

theorem entries_leaf (es : List LeafEntry) : (Tree.leaf es).entries = es := by
  rw [Tree.entries]

theorem REntry.subtree_mk (p : Vec) (r pd : ℚ) (t : Tree) :
    (REntry.mk p r pd t).subtree = t := rfl

theorem mem_addDoc_self (doc : DocId) (docs : List DocId) : doc ∈ addDoc doc docs := by
  unfold addDoc
  by_cases h : doc ∈ docs
  · rw [if_pos h]
    exact h
  · rw [if_neg h]
    exact List.mem_append_right _ (List.mem_singleton_self _)

theorem mem_addDoc_of_mem {x : DocId} {docs : List DocId} (doc : DocId)
    (h : x ∈ docs) : x ∈ addDoc doc docs := by
  unfold addDoc
  by_cases hd : doc ∈ docs
  · rw [if_pos hd]
    exact h
  · rw [if_neg hd]
    exact List.mem_append_left _ h

theorem mem_docsFor_iff {v : Vec} {x : DocId} {t : Tree} :
    x ∈ t.docsFor v ↔ ∃ e ∈ t.entries, e.vector = v ∧ x ∈ e.docs := by
  unfold Tree.docsFor
  rw [List.mem_flatMap]
  constructor
  · rintro ⟨e, he, hx⟩
    obtain ⟨he1, he2⟩ := List.mem_filter.1 he
    exact ⟨e, he1, by simpa using he2, hx⟩
  · rintro ⟨e, he, hev, hx⟩
    exact ⟨e, List.mem_filter.2 ⟨he, by simpa using hev⟩, hx⟩

theorem insertAt_dedup {d : Vec → Vec → ℚ} {m : Nat} :
    ∀ (pp : Option Vec) (v : Vec) (doc : DocId) (t : Tree),
      targetHasV d v t = true →
      ∃ t1, insertAt d m pp v doc t = .single t1 ∧
        t1.entries.map LeafEntry.vector = t.entries.map LeafEntry.vector ∧
        doc ∈ t1.docsFor v ∧ ∀ x ∈ t.docsFor v, x ∈ t1.docsFor v := by
  refine insertAt.induct d m (motive := fun pp v doc t => targetHasV d v t = true →
      ∃ t1, insertAt d m pp v doc t = .single t1 ∧
        t1.entries.map LeafEntry.vector = t.entries.map LeafEntry.vector ∧
        doc ∈ t1.docsFor v ∧ ∀ x ∈ t.docsFor v, x ∈ t1.docsFor v)
    ?_ ?_ ?_ ?_ ?_ ?_ ?_
  · -- dedup at an existing leaf entry
    intro pp v doc es hany htarget
    rw [insertAt, if_pos hany]
    refine ⟨_, rfl, ?_, ?_, ?_⟩
    · rw [entries_leaf, entries_leaf, List.map_map]
      refine List.map_congr_left ?_
      intro e he
      dsimp only [Function.comp]
      split <;> rfl
    · obtain ⟨e0, he0, hv0⟩ := List.any_eq_true.1 hany
      have hv0' : e0.vector = v := by simpa using hv0
      refine mem_docsFor_iff.2 ⟨{ e0 with docs := addDoc doc e0.docs }, ?_, hv0', ?_⟩
      · rw [entries_leaf]
        have : (if e0.vector = v then { e0 with docs := addDoc doc e0.docs } else e0)
            = { e0 with docs := addDoc doc e0.docs } := by
          rw [if_pos hv0']
        rw [← this]
        exact List.mem_map_of_mem _ he0
      · exact mem_addDoc_self doc e0.docs
    · intro x hx
      obtain ⟨e1, he1, hev1, hx1⟩ := mem_docsFor_iff.1 hx
      rw [entries_leaf] at he1
      refine mem_docsFor_iff.2 ⟨{ e1 with docs := addDoc doc e1.docs }, ?_, hev1, ?_⟩
      · rw [entries_leaf]
        have : (if e1.vector = v then { e1 with docs := addDoc doc e1.docs } else e1)
            = { e1 with docs := addDoc doc e1.docs } := by
          rw [if_pos hev1]
        rw [← this]
        exact List.mem_map_of_mem _ he1
      · exact mem_addDoc_of_mem doc hx1
  · -- no entry with this vector at the target leaf: hypothesis refuted
    intro pp v doc es hany hlen htarget
    rw [targetHasV] at htarget
    exact absurd htarget hany
  · intro pp v doc es hany hlen htarget
    rw [targetHasV] at htarget
    exact absurd htarget hany
  · -- routing node with no entries
    intro pp v doc es hnone htarget
    rw [targetHasV, hnone] at htarget
    exact Bool.noConfusion htarget
  · -- descent returns a single updated subtree
    intro pp v doc es pre e post de h t1r hins ih htarget
    rw [targetHasV, h] at htarget
    dsimp only at htarget
    obtain ⟨t1', hins', hmap, hdoc, hold⟩ := ih htarget
    rw [hins] at hins'
    have ht1 : t1r = t1' := by
      injection hins'
    subst ht1
    obtain ⟨hesEq, hde⟩ := chooseSub_eq h
    rw [insertAt, h]
    dsimp only
    rw [hins]
    dsimp only
    refine ⟨_, rfl, ?_, ?_, ?_⟩
    · rw [hesEq, Tree.entries_routing, Tree.entries_routing]
      simp only [List.flatMap_append, List.flatMap_cons, List.map_append,
        REntry.subtree_mk]
      rw [hmap]
    · obtain ⟨e1, he1, hev1, hd1⟩ := mem_docsFor_iff.1 hdoc
      refine mem_docsFor_iff.2 ⟨e1, ?_, hev1, hd1⟩
      rw [Tree.entries_routing]
      refine List.mem_flatMap.2 ⟨REntry.mk e.pivot (max e.radius de) e.parentDist t1r,
        ?_, he1⟩
      exact List.mem_append_right _ (List.mem_cons_self _ _)
    · intro x hx
      obtain ⟨e1, he1, hev1, hd1⟩ := mem_docsFor_iff.1 hx
      rw [hesEq, Tree.entries_routing] at he1
      obtain ⟨f, hf, he1f⟩ := List.mem_flatMap.1 he1
      have hgoal : ∀ g, g ∈ (pre ++ REntry.mk e.pivot (max e.radius de)
          e.parentDist t1r :: post) → e1 ∈ g.subtree.entries →
          x ∈ (Tree.routing (pre ++ REntry.mk e.pivot (max e.radius de)
            e.parentDist t1r :: post)).docsFor v := by
        intro g hg hge
        refine mem_docsFor_iff.2 ⟨e1, ?_, hev1, hd1⟩
        rw [Tree.entries_routing]
        exact List.mem_flatMap.2 ⟨g, hg, hge⟩
      rcases List.mem_append.1 hf with hf | hf
      · exact hgoal f (List.mem_append_left _ hf) he1f
      · rcases List.mem_cons.1 hf with rfl | hf
        · have hx1 : x ∈ Tree.docsFor v f.subtree :=
            mem_docsFor_iff.2 ⟨e1, he1f, hev1, hd1⟩
          obtain ⟨e2, he2, hev2, hd2⟩ := mem_docsFor_iff.1 (hold x hx1)
          refine mem_docsFor_iff.2 ⟨e2, ?_, hev2, hd2⟩
          rw [Tree.entries_routing]
          refine List.mem_flatMap.2 ⟨REntry.mk f.pivot (max f.radius de)
            f.parentDist t1r, ?_, he2⟩
          exact List.mem_append_right _ (List.mem_cons_self _ _)
        · exact hgoal f (List.mem_append_right _ (List.mem_cons_of_mem _ hf)) he1f
  · -- a split below the target contradicts the dedup situation
    intro pp v doc es pre e post de h p1r r1r t1r p2r r2r t2r hins hfits ih htarget
    rw [targetHasV, h] at htarget
    dsimp only at htarget
    obtain ⟨t1', hins', _⟩ := ih htarget
    rw [hins] at hins'
    exact InsRes.noConfusion hins'
  · intro pp v doc es pre e post de h p1r r1r t1r p2r r2r t2r hins hfits ih htarget
    rw [targetHasV, h] at htarget
    dsimp only at htarget
    obtain ⟨t1', hins', _⟩ := ih htarget
    rw [hins] at hins'
    exact InsRes.noConfusion hins'

theorem MTree.insert_state {d : Vec → Vec → ℚ} {t t' : MTree} {v : Vec}
    {doc : DocId} (h : t.insert d v doc = .ok t') : t'.state = t.state := by
  unfold MTree.insert at h
  rcases hroot : t.root with _ | root <;> rw [hroot] at h <;> dsimp only at h
  · cases h
    rfl
  · by_cases hdim : root.dimsOk v.length = true
    · rw [if_pos hdim] at h
      cases h
      rfl
    · rw [if_neg hdim] at h
      exact Except.noConfusion h

theorem MTree.insertAll_state {d : Vec → Vec → ℚ} {t t' : MTree}
    {ps : List (Vec × DocId)} (h : t.insertAll d ps = .ok t') :
    t'.state = t.state := by
  induction ps generalizing t with
  | nil =>
    rw [MTree.insertAll] at h
    cases h
    rfl
  | cons p ps ih =>
    rw [MTree.insertAll] at h
    rcases hstep : MTree.insert d t p.1 p.2 with e1 | t1 <;> rw [hstep] at h
    · exact Except.noConfusion h
    · dsimp only at h
      rw [ih h, MTree.insert_state hstep]

theorem persist_load {t : MTree} {fuel : Nat}
    (hfuel : ∀ root, t.root = some root → sizeOf root ≤ fuel) :
    loadMTree t.state.capacity (persistMTree t ⟨[], none⟩) fuel = .ok t := by
  unfold persistMTree
  rcases hroot : t.root with _ | root <;> dsimp only
  · unfold loadMTree
    dsimp only
    rcases t with ⟨⟨m⟩, r⟩
    dsimp only at hroot ⊢
    subst hroot
    rfl
  · rcases henc : encodeTree root TreeNodeStore.new with ⟨rid, s⟩
    obtain ⟨hI, _, _, _, new, hcache, hnew, hdec⟩ :=
      encode_decode root TreeNodeStore.new rid s StInv_new henc
    have hB : ∀ p ∈ new, kvGet (s.finish []) p.1 = some p.2.1 := by
      intro p hp
      have hpc : p ∈ s.cache := by
        rw [hcache]
        exact List.mem_append_left _ hp
      exact kvGet_finish hI.2 hpc (hnew p hp).2
    obtain ⟨rs', hrun, _⟩ := hdec (s.finish []) hB fuel (hfuel root hroot)
      TreeNodeStore.new (RCons_new _)
    dsimp only
    unfold loadMTree
    dsimp only
    rw [hrun]
    dsimp only
    rcases t with ⟨⟨m⟩, r⟩
    dsimp only at hroot ⊢
    subst hroot
    rfl

theorem entryCountFor_eq_of_vectors {v : Vec} {t1 t2 : Tree}
    (h : t1.entries.map LeafEntry.vector = t2.entries.map LeafEntry.vector) :
    t1.entryCountFor v = t2.entryCountFor v := by
  unfold Tree.entryCountFor
  rw [← List.countP_eq_length_filter, ← List.countP_eq_length_filter]
  have h1 : ∀ l : List LeafEntry, l.countP (fun e => decide (e.vector = v))
      = (l.map LeafEntry.vector).countP (fun w => decide (w = v)) := by
    intro l
    rw [List.countP_map]
    rfl
  rw [h1, h1, h]

/-- The two-entry leaf the index holds after inserting `([0], 0)` and
`([3], 1)` into a fresh capacity-2 index. -/
def tC1 : MTree :=
  ⟨MState.new 2, some (.leaf [⟨[0], [0], 0⟩, ⟨[3], [1], 0⟩])⟩

/-- The tree the index holds after inserting `[0]`, `[3]`, `[1]` into a fresh
capacity-2 index: the third insert overflows the root leaf and splits it. -/
def tC2 : MTree :=
  ⟨MState.new 2, some (.routing
    [.mk [0] 1 0 (.leaf [⟨[0], [0], 0⟩, ⟨[1], [2], 1⟩]),
     .mk [3] 0 0 (.leaf [⟨[3], [1], 0⟩])])⟩

/-- A single-leaf index already storing the vector `[8]` for doc 6. -/
def tC3 : MTree :=
  ⟨MState.new 5, some (.leaf [⟨[8], [6], 0⟩])⟩

/-- A single-point index, as built by inserting `([0], 0)` into a fresh
capacity-2 index. -/
def tC7 : MTree :=
  ⟨MState.new 2, some (.leaf [⟨[0], [0], 0⟩])⟩

/-- A persisted state holding one committed leaf node as its root. -/
def dbC5 : DB :=
  ⟨[(0, .leaf [⟨[0], [0], 0⟩])], some 0⟩

/-- Five one-dimensional points whose insertion order leaves `[4]` stored
under the pivot `[2]`, while the covering radius of the first root entry
grows to cover `[4]`: re-inserting `[4]` then descends into the first
subtree, away from the leaf already holding it. -/
def c3ps : List (Vec × DocId) :=
  [([2], 0), ([4], 1), ([0], 2), ([8], 3), ([16], 4)]

theorem knnSearch_exact_witness :
    ∃ R, tC1.knnSearch manhattan [1] 1 = .ok R ∧
      R.length = min 1 (tC1.storedPairs manhattan [1]).length ∧
      R.Sorted (fun a b => a.2 ≤ b.2) ∧
      (∃ rest, (R.map (fun p => (p.2, p.1)) ++ rest).Perm
          (tC1.storedPairs manhattan [1]) ∧
        ∀ a ∈ R, ∀ b ∈ rest, a.2 ≤ b.1) ∧
      R.map Prod.snd = (bruteForce manhattan tC1 [1] 1).map Prod.fst :=
  knnSearch_exact manhattan_metric (le_refl 2)
    (show (MTree.new (MState.new 2)).insertAll manhattan [([0], 0), ([3], 1)]
        = .ok tC1 by with_unfolding_all rfl)
    (by with_unfolding_all rfl) 1

/-- C2: after any sequence of inserts into a fresh index (capacity at least
2) completes, every routing entry's covering radius bounds the distance from
its pivot to every vector stored in its subtree, recursively at every level
(`Covers`). -/
theorem insertAll_coverage {d : Vec → Vec → ℚ} (hd : IsMetric d) {m : Nat}
    (hm : 2 ≤ m) {ps : List (Vec × DocId)} {t : MTree}
    (hbuild : (MTree.new (MState.new m)).insertAll d ps = .ok t)
    {root : Tree} (hroot : t.root = some root) : Covers d root := by
  obtain ⟨hInv, _⟩ := MTree_insertAll_inv hd (by exact hm) (by trivial) hbuild
  unfold InvM at hInv
  rw [hroot] at hInv
  obtain ⟨n, hI⟩ := hInv
  exact hI.2.1

theorem insertAll_coverage_witness : Covers manhattan (Tree.routing
    [.mk [0] 1 0 (.leaf [⟨[0], [0], 0⟩, ⟨[1], [2], 1⟩]),
     .mk [3] 0 0 (.leaf [⟨[3], [1], 0⟩])]) :=
  insertAll_coverage manhattan_metric (le_refl 2)
    (show (MTree.new (MState.new 2)).insertAll manhattan
        [([0], 0), ([3], 1), ([1], 2)] = .ok tC2 by with_unfolding_all rfl)
    rfl

/-- C6: after any sequence of inserts into a fresh index (capacity at least
2) completes, every node of the tree holds at most `m` entries, the capacity
fixed at creation (`maxFan`). -/
theorem insertAll_capacity {d : Vec → Vec → ℚ} (hd : IsMetric d) {m : Nat}
    (hm : 2 ≤ m) {ps : List (Vec × DocId)} {t : MTree}
    (hbuild : (MTree.new (MState.new m)).insertAll d ps = .ok t)
    {root : Tree} (hroot : t.root = some root) : root.maxFan ≤ m := by
  obtain ⟨hInv, hstate⟩ := MTree_insertAll_inv hd (by exact hm) (by trivial) hbuild
  unfold InvM at hInv
  rw [hroot] at hInv
  obtain ⟨n, hI⟩ := hInv
  have h := hI.2.2.1
  rw [hstate] at h
  exact h

theorem insertAll_capacity_witness : Tree.maxFan (Tree.routing
    [.mk [0] 1 0 (.leaf [⟨[0], [0], 0⟩, ⟨[1], [2], 1⟩]),
     .mk [3] 0 0 (.leaf [⟨[3], [1], 0⟩])]) ≤ 2 :=
  insertAll_capacity manhattan_metric (le_refl 2)
    (show (MTree.new (MState.new 2)).insertAll manhattan
        [([0], 0), ([3], 1), ([1], 2)] = .ok tC2 by with_unfolding_all rfl)
    rfl

/-- C3 (amended): when the vector is already present at the one leaf the
insertion descent reaches (`targetHasV`), inserting it again with another doc
id returns a tree with the same leaf entries vector-for-vector — no new
entry, no split, the same number of entries for the vector — the new doc id
added to the doc set stored for the vector and every previously stored doc id
kept. The claim's original premise, the vector being stored in *some* leaf,
is strictly weaker and refuted by `insert_dedup_nontarget_counterexample`. -/
theorem insert_dedup_target {d : Vec → Vec → ℚ} {t : MTree} {root : Tree}
    (hroot : t.root = some root) {v : Vec} (hdim : root.dimsOk v.length = true)
    (htarget : targetHasV d v root = true) (doc : DocId) :
    ∃ t1, t.insert d v doc = .ok ⟨t.state, some t1⟩ ∧
      t1.entries.map LeafEntry.vector = root.entries.map LeafEntry.vector ∧
      t1.entryCountFor v = root.entryCountFor v ∧
      doc ∈ Tree.docsFor v t1 ∧
      ∀ x ∈ Tree.docsFor v root, x ∈ Tree.docsFor v t1 := by
  obtain ⟨t1, hins, hmap, hdoc, hold⟩ :=
    insertAt_dedup (m := t.state.capacity) none v doc root htarget
  refine ⟨t1, ?_, hmap, entryCountFor_eq_of_vectors hmap, hdoc, hold⟩
  unfold MTree.insert
  rw [hroot]
  dsimp only
  rw [if_pos hdim]
  unfold insertTree
  rw [hins]

theorem insert_dedup_target_witness :
    ∃ t1, tC3.insert manhattan [8] 10 = .ok ⟨tC3.state, some t1⟩ ∧
      t1.entries.map LeafEntry.vector
        = (Tree.leaf [⟨[8], [6], 0⟩]).entries.map LeafEntry.vector ∧
      t1.entryCountFor [8] = (Tree.leaf [⟨[8], [6], 0⟩]).entryCountFor [8] ∧
      10 ∈ Tree.docsFor [8] t1 ∧
      ∀ x ∈ Tree.docsFor [8] (Tree.leaf [⟨[8], [6], 0⟩]),
        x ∈ Tree.docsFor [8] t1 :=
  insert_dedup_target rfl (by with_unfolding_all rfl)
    (by with_unfolding_all rfl) 10

set_option maxRecDepth 400000 in
set_option maxHeartbeats 4000000 in
/-- C3, as frozen, is false: after inserting `c3ps` into a fresh capacity-2
index, the vector `[4]` is stored in exactly one leaf entry, yet inserting
`[4]` again (doc 99) leaves the tree with two leaf entries for `[4]`: the
dedup of spec section 4.3 step 2 applies only at the leaf the descent
reaches, and the descent (covering entries first, first win) here picks the
first root entry, whose radius has grown to cover `[4]`, not the subtree
whose leaf holds `[4]`. -/
theorem insert_dedup_nontarget_counterexample :
    ((MTree.new (MState.new 2)).insertAll manhattan c3ps).map
        (MTree.entryCountFor [4]) = .ok 1 ∧
    (((MTree.new (MState.new 2)).insertAll manhattan c3ps).bind
        (fun t => t.insert manhattan [4] 99)).map
        (MTree.entryCountFor [4]) = .ok 2 :=
  ⟨by with_unfolding_all rfl, by with_unfolding_all rfl⟩

/-- C4: `knn_search` with `k = 0` returns the empty sequence and no error on
any tree, and `knn_search` on a fresh (empty) index returns the empty
sequence and no error, for every query vector and every `k`. -/
theorem knnSearch_zero_and_empty :
    (∀ (d : Vec → Vec → ℚ) (t : MTree) (q : Vec),
      t.knnSearch d q 0 = .ok []) ∧
    (∀ (d : Vec → Vec → ℚ) (s : MState) (q : Vec) (k : Nat),
      (MTree.new s).knnSearch d q k = .ok []) := by
  constructor
  · intro d t q
    unfold MTree.knnSearch
    rcases hroot : t.root with _ | root
    · rfl
    · exact if_pos rfl
  · intro d s q k
    rfl

/-- C5: when the persisted index loads and the inserted vector's dimension
differs from the stored vectors, the whole insert transaction returns
`DimensionMismatch` to the caller and the persisted state is returned
unchanged: nothing was flushed. -/
theorem insert_dim_mismatch_rollback {d : Vec → Vec → ℚ} {m : Nat} {db : DB}
    {fuel : Nat} {t : MTree} {root : Tree} {v : Vec}
    (hload : loadMTree m db fuel = .ok t) (hroot : t.root = some root)
    (hdim : root.dimsOk v.length = false) (doc : DocId) :
    insertIntoDB d m db v doc fuel = (.error .DimensionMismatch, db) := by
  unfold insertIntoDB
  rw [hload]
  dsimp only
  have hins : t.insert d v doc = .error .DimensionMismatch := by
    unfold MTree.insert
    rw [hroot]
    dsimp only
    rw [if_neg (by simp [hdim])]
  rw [hins]

theorem insert_dim_mismatch_rollback_witness :
    insertIntoDB manhattan 5 dbC5 [1, 2] 9 1 = (.error .DimensionMismatch, dbC5) :=
  insert_dim_mismatch_rollback
    (show loadMTree 5 dbC5 1 = .ok ⟨MState.new 5, some (.leaf [⟨[0], [0], 0⟩])⟩
      by with_unfolding_all rfl)
    rfl (by with_unfolding_all rfl) 9

/-- C7: a tree built by a sequence of inserts and committed (persisted
through a fresh write store and `finish`), then reloaded from the backing
substrate through a fresh node store, yields `knn_search` results identical
to the pre-commit in-memory tree for every query vector and every `k` (the
reload returns the very same tree, given decode fuel at least the root's
size). -/
theorem roundtrip_search {d : Vec → Vec → ℚ} {m : Nat}
    {ps : List (Vec × DocId)} {t : MTree}
    (hbuild : (MTree.new (MState.new m)).insertAll d ps = .ok t)
    {fuel : Nat} (hfuel : ∀ root, t.root = some root → sizeOf root ≤ fuel) :
    ∃ t', loadMTree m (persistMTree t ⟨[], none⟩) fuel = .ok t' ∧
      ∀ q k, t'.knnSearch d q k = t.knnSearch d q k := by
  have hstate := MTree.insertAll_state hbuild
  have hcap : t.state.capacity = m := by
    rw [hstate]
    rfl
  refine ⟨t, ?_, fun q k => rfl⟩
  have h := persist_load (t := t) hfuel
  rw [hcap] at h
  exact h

theorem roundtrip_search_witness :
    ∃ t', loadMTree 2 (persistMTree tC7 ⟨[], none⟩) 1000 = .ok t' ∧
      ∀ q k, t'.knnSearch manhattan q k = tC7.knnSearch manhattan q k :=
  roundtrip_search
    (show (MTree.new (MState.new 2)).insertAll manhattan [([0], 0)] = .ok tC7
      from rfl)
    (fun root h => by
      have h1 := Option.some.inj h
      subst h1
      decide)

end Mt

namespace Rx

/-- A compiled regex of the `regex` crate: it remembers the pattern string it
was compiled from (`regex::Regex::as_str` returns it) and the compiled
automaton, abstracted as an opaque payload the equality, ordering and hashing
of `Regex` never look at (src/lib/src/sql/regex.rs lines 61-85 all go through
`as_str`). -/
structure CompiledRegex where
  pattern : String
  prog : Nat
deriving Repr, DecidableEq

/-- `regex::Error`: what `regex::Regex::new` can return (the crate's syntax
and size-limit errors). -/
inductive RegexError where
  | Syntax (msg : String) : RegexError
  | CompiledTooBig (limit : Nat) : RegexError
deriving Repr, DecidableEq

/-- An LRU cache from pattern strings to compiled regexes (the `lru` crate):
entries most-recently-used first, at most `cap` of them. -/
structure LruCache where
  cap : Nat
  entries : List (String × CompiledRegex)
deriving Repr, DecidableEq

/-- `LruCache::get`: a hit moves the entry to the most-recently-used
position; a miss leaves the cache unchanged. -/
def LruCache.get (c : LruCache) (k : String) :
    Option CompiledRegex × LruCache :=
  match c.entries.find? (fun p => p.1 == k) with
  | none => (none, c)
  | some p => (some p.2, ⟨c.cap, p :: c.entries.filter (fun q => !(q.1 == k))⟩)

/-- `LruCache::put`: inserts (or renews) the key at the most-recently-used
position, evicting from the least-recently-used end down to capacity. -/
def LruCache.put (c : LruCache) (k : String) (v : CompiledRegex) : LruCache :=
  ⟨c.cap, ((k, v) :: c.entries.filter (fun q => !(q.1 == k))).take c.cap⟩

/-- A `usize` decimal literal as Rust `str::parse::<usize>` accepts it: an
optional leading `+`, then one or more ASCII digits (`String.toNat?`); the
model ignores overflow. -/
def parseUsize (s : String) : Option Nat :=
  if s.startsWith "+" then (s.drop 1).toNat? else s.toNat?

/-- The cache size regex_new's LRU cache is created with
(src/lib/src/sql/regex.rs lines 32-34): the SURREAL_REGEX_CACHE_SIZE
environment variable if present and parseable, 1000 otherwise, and never
below 10. -/
def cacheSize (env : Option String) : Nat :=
  (match env with
   | none => 1000
   | some v => (parseUsize v).getD 1000).max 10

/-- `regex_new` (src/lib/src/sql/regex.rs lines 30-47), parametrized by the
crate's compiler `compile` (a pure function: compilation is deterministic):
return the cached compiled regex for the pattern if present, otherwise
compile, caching the result only on success, and propagating the error
otherwise. -/
def regex_new (compile : String → Except RegexError CompiledRegex)
    (s : String) (cache : LruCache) :
    Except RegexError CompiledRegex × LruCache :=
  match cache.get s with
  | (some re, cache1) => (.ok re, cache1)
  | (none, cache1) =>
    match compile s with
    | .error e => (.error e, cache1)
    | .ok re => (.ok re, cache1.put s re)

/-- `Regex`: the SQL value wrapping a compiled regex
(src/lib/src/sql/regex.rs line 21). -/
structure Regex where
  compiled : CompiledRegex
deriving Repr, DecidableEq

/-- `self.0.as_str()`: the pattern string of the wrapped compiled regex. -/
def Regex.as_str (r : Regex) : String :=
  r.compiled.pattern

/-- `Regex::from_str` (src/lib/src/sql/regex.rs lines 52-58): reject any
string holding a NUL byte, otherwise compile it with every `\/` replaced
by `/`. -/
def Regex.from_str (compile : String → Except RegexError CompiledRegex)
    (s : String) (cache : LruCache) : Except RegexError Regex × LruCache :=
  if s.contains (Char.ofNat 0) then
    (.error (.Syntax "regex contained NUL byte"), cache)
  else
    match regex_new compile (s.replace "\\/" "/") cache with
    | (.ok re, c1) => (.ok ⟨re⟩, c1)
    | (.error e, c1) => (.error e, c1)

/-- `PartialEq for Regex` (src/lib/src/sql/regex.rs lines 61-65): equality of
the pattern strings. -/
def Regex.beq (a b : Regex) : Bool :=
  a.as_str == b.as_str

/-- `Ord for Regex` (src/lib/src/sql/regex.rs lines 69-73): comparison of the
pattern strings. -/
def Regex.cmp (a b : Regex) : Ordering :=
  compare a.as_str b.as_str

/-- `Hash for Regex` (src/lib/src/sql/regex.rs lines 81-85): the pattern
string is fed to the hasher, abstracted as an arbitrary string hash `h`. -/
def Regex.hashWith (h : String → Nat) (a : Regex) : Nat :=
  h a.as_str

/-- Every cache entry holds exactly what compiling its key returns: true of
the empty cache and preserved by `regex_new`, since entries are only put
right after a successful compilation of their key. -/
def CacheWF (compile : String → Except RegexError CompiledRegex)
    (c : LruCache) : Prop :=
  ∀ p ∈ c.entries, compile p.1 = .ok p.2

theorem CacheWF_get_hit {compile : String → Except RegexError CompiledRegex} {c : LruCache} {k : String}
    {re : CompiledRegex} {c1 : LruCache} (hwf : CacheWF compile c)
    (h : c.get k = (some re, c1)) :
    compile k = .ok re ∧ CacheWF compile c1 := by
  unfold LruCache.get at h
  rcases hfind : c.entries.find? (fun p => p.1 == k) with _ | p <;>
      rw [hfind] at h <;> dsimp only at h
  · injection h with h1 h2
    exact Option.noConfusion h1
  · injection h with h1 h2
    have hre : p.2 = re := Option.some.inj h1
    have hmem := List.mem_of_find?_eq_some hfind
    have hkey : p.1 = k := by
      have := List.find?_some hfind
      simpa using this
    constructor
    · rw [← hkey, ← hre]
      exact hwf p hmem
    · rw [← h2]
      intro q hq
      rcases List.mem_cons.1 hq with rfl | hq
      · exact hwf q hmem
      · exact hwf q (List.mem_filter.1 hq).1

theorem CacheWF_get_miss {c : LruCache} {k : String}
    {c1 : LruCache} (h : c.get k = (none, c1)) : c1 = c := by
  unfold LruCache.get at h
  rcases hfind : c.entries.find? (fun p => p.1 == k) with _ | p <;>
      rw [hfind] at h <;> dsimp only at h
  · injection h with h1 h2
    exact h2.symm
  · injection h with h1 h2
    exact Option.noConfusion h1

theorem CacheWF_put {compile : String → Except RegexError CompiledRegex} {c : LruCache} {k : String} {re : CompiledRegex}
    (hwf : CacheWF compile c) (hre : compile k = .ok re) :
    CacheWF compile (c.put k re) := by
  intro q hq
  unfold LruCache.put at hq
  dsimp only at hq
  have hq1 := List.mem_of_mem_take hq
  rcases List.mem_cons.1 hq1 with rfl | hq1
  · exact hre
  · exact hwf q (List.mem_filter.1 hq1).1

theorem compare_string_eq_iff {a b : String} : compare a b = .eq ↔ a = b :=
  Batteries.BEqCmp.cmp_iff_eq

/-- `regex_new` observed through a well-formed cache: the outcome is exactly
what compiling the pattern directly returns, and well-formedness is kept. -/
theorem regex_new_eq {compile : String → Except RegexError CompiledRegex}
    {c : LruCache} (hwf : CacheWF compile c) (s : String) :
    (regex_new compile s c).1 = compile s ∧
      CacheWF compile (regex_new compile s c).2 := by
  unfold regex_new
  rcases hget : c.get s with ⟨_ | re, c1⟩ <;> dsimp only
  · have hc1 : c1 = c := CacheWF_get_miss hget
    subst hc1
    rcases hcomp : compile s with e | re2 <;> dsimp only
    · exact ⟨rfl, hwf⟩
    · exact ⟨rfl, CacheWF_put hwf hcomp⟩
  · obtain ⟨hcomp, hwf1⟩ := CacheWF_get_hit hwf hget
    exact ⟨hcomp.symm, hwf1⟩

/-- A stand-in for the `regex` crate's compiler in witnesses: deterministic,
always succeeding, returning a compiled value whose `as_str` is the input. -/
def toyCompile (s : String) : Except RegexError CompiledRegex :=
  .ok ⟨s, s.length⟩

/-- An empty ten-slot cache. -/
def rxCache0 : LruCache := ⟨10, []⟩

/-- A ten-slot cache holding one previously compiled pattern. -/
def rxCache1 : LruCache := ⟨10, [("x", ⟨"x", 1⟩)]⟩

/-- C8: `Regex::from_str` errors on any input holding a NUL byte; otherwise
it compiles the input with every `\/` replaced by `/`, succeeding exactly
when that replaced string compiles, and the resulting value's pattern string
(`as_str`) is the replaced string. Stated over any compiler `compile` whose
successful results report their input as their pattern, through any
well-formed cache. -/
theorem from_str_spec (compile : String → Except RegexError CompiledRegex)
    (hc : ∀ s r, compile s = .ok r → r.pattern = s)
    {cache : LruCache} (hwf : CacheWF compile cache) (s : String) :
    (s.contains (Char.ofNat 0) = true →
      (Regex.from_str compile s cache).1
        = .error (.Syntax "regex contained NUL byte")) ∧
    (s.contains (Char.ofNat 0) = false →
      (Regex.from_str compile s cache).1
          = (compile (s.replace "\\/" "/")).map Regex.mk ∧
        ∀ r, (Regex.from_str compile s cache).1 = .ok r →
          r.as_str = s.replace "\\/" "/") := by
  obtain ⟨hmain, _⟩ := regex_new_eq hwf (s.replace "\\/" "/")
  constructor
  · intro hnul
    unfold Regex.from_str
    rw [if_pos hnul]
  · intro hnul
    have hcond : ¬(s.contains (Char.ofNat 0) = true) := by simp [hnul]
    constructor
    · unfold Regex.from_str
      rw [if_neg hcond]
      rcases hrn : regex_new compile (s.replace "\\/" "/") cache with ⟨er, c1⟩
      rw [hrn] at hmain
      dsimp only at hmain
      rcases er with e | re <;> dsimp only
      · rw [← hmain]
        rfl
      · rw [← hmain]
        rfl
    · intro r hr
      unfold Regex.from_str at hr
      rw [if_neg hcond] at hr
      rcases hrn : regex_new compile (s.replace "\\/" "/") cache with ⟨er, c1⟩
      rw [hrn] at hr hmain
      dsimp only at hmain
      rcases er with e | re <;> dsimp only at hr
      · exact Except.noConfusion hr
      · have h1 : Regex.mk re = r := Except.ok.inj hr
        rw [← h1]
        exact hc _ re hmain.symm

theorem from_str_spec_witness :
    ("^a\\/b$".contains (Char.ofNat 0) = true →
      (Regex.from_str toyCompile "^a\\/b$" rxCache0).1
        = .error (.Syntax "regex contained NUL byte")) ∧
    ("^a\\/b$".contains (Char.ofNat 0) = false →
      (Regex.from_str toyCompile "^a\\/b$" rxCache0).1
          = (toyCompile ("^a\\/b$".replace "\\/" "/")).map Regex.mk ∧
        ∀ r, (Regex.from_str toyCompile "^a\\/b$" rxCache0).1 = .ok r →
          r.as_str = "^a\\/b$".replace "\\/" "/") :=
  from_str_spec toyCompile (fun s r h => by cases h; rfl)
    (fun p hp => absurd hp (List.not_mem_nil p)) "^a\\/b$"

/-- C9: through any well-formed cache state, `regex_new` returns exactly what
compiling the pattern directly returns — the same compiled value on a hit or
a successful compile, the same error on a failed one — and leaves the cache
well-formed; the cache size is at least 10 whatever the
SURREAL_REGEX_CACHE_SIZE environment variable holds. -/
theorem regex_new_cache_transparent
    (compile : String → Except RegexError CompiledRegex) {cache : LruCache}
    (hwf : CacheWF compile cache) (s : String) :
    (regex_new compile s cache).1 = compile s ∧
      CacheWF compile (regex_new compile s cache).2 ∧
      ∀ e, 10 ≤ cacheSize e := by
  obtain ⟨h1, h2⟩ := regex_new_eq hwf s
  refine ⟨h1, h2, ?_⟩
  intro e
  unfold cacheSize
  exact Nat.le_max_right _ 10

theorem regex_new_cache_transparent_witness :
    (regex_new toyCompile "y" rxCache1).1 = toyCompile "y" ∧
      CacheWF toyCompile (regex_new toyCompile "y" rxCache1).2 ∧
      ∀ e, 10 ≤ cacheSize e :=
  regex_new_cache_transparent toyCompile
    (fun p hp => by
      rcases List.mem_singleton.1 hp with rfl
      rfl)
    "y"

/-- C10: equality, ordering and hashing of `Regex` read only the pattern
string: `==` holds exactly when the patterns are equal, `cmp` is the string
comparison of the patterns and orders equal exactly the `==`-equal values,
and `==`-equal values hash alike under every string hasher. -/
theorem regex_eq_ord_hash_by_pattern :
    ∀ (h : String → Nat) (a b : Regex),
      (Regex.beq a b = true ↔ a.as_str = b.as_str) ∧
      Regex.cmp a b = compare a.as_str b.as_str ∧
      (Regex.cmp a b = .eq ↔ Regex.beq a b = true) ∧
      (Regex.beq a b = true → Regex.hashWith h a = Regex.hashWith h b) := by
  intro h a b
  have hbeq : Regex.beq a b = true ↔ a.as_str = b.as_str := by
    unfold Regex.beq
    exact beq_iff_eq
  refine ⟨hbeq, rfl, ?_, ?_⟩
  · unfold Regex.cmp
    rw [hbeq]
    exact compare_string_eq_iff
  · intro hb
    unfold Regex.hashWith
    rw [hbeq.1 hb]

end Rx
